import Mathlib

/-!
Verification of the whatsapp-archive core: a shallow embedding of
`src/file_info.rs`, `src/filter.rs` and `src/file_index.rs`.

Modelling conventions:
* A relative path (`PathBuf`) is its list of components (`RelPath`).
* `FileTime` is (unix seconds, nanoseconds); `NaiveDateTime` is kept in
  civil form (year, month, day, seconds-of-day, nanoseconds), so structural
  equality matches chrono's.
* Machine integers (`u64` sizes, counts) are `Nat`; `saturating_sub` on
  `u64` is exactly `Nat` subtraction.
* Filesystem effects are passed explicitly: an index is a pair of maps
  (the in-memory `entries` map and the destination tree's on-disk files),
  and each fallible I/O step of an operation is an explicit argument
  (an `Except` oracle for the record a read/copy produces, a `Bool` for
  whether a delete succeeds).
* The two association-list maps model `HashMap`; iteration order of a
  `HashMap` is arbitrary, which the list order represents.
-/

namespace Waa

/-- A relative path, as its list of components (Rust `PathBuf`). -/
abbrev RelPath := List String

/-- `filetime::FileTime`: unix seconds plus nanoseconds. -/
structure FileTime where
  secs : Int
  nanos : Nat
deriving DecidableEq, Repr

/-- Lexicographic order on `FileTime` (its derived `Ord`). -/
def FileTime.lt (a b : FileTime) : Bool :=
  a.secs < b.secs || (a.secs == b.secs && a.nanos < b.nanos)

/-- Non-strict version of `FileTime.lt`. -/
def FileTime.le (a b : FileTime) : Bool :=
  a.secs < b.secs || (a.secs == b.secs && a.nanos ≤ b.nanos)

/-- `chrono::NaiveDateTime` in civil form: a proleptic-Gregorian calendar
date plus the time of day.  Structural equality agrees with chrono's
equality on the range of timestamps the program handles. -/
structure NaiveDateTime where
  year : Int
  month : Nat
  day : Nat
  secsOfDay : Nat
  nanos : Nat
deriving DecidableEq, Repr

/-- `FileInfo` (src/file_info.rs): mtime, estimated creation date, size.
`PartialEq`/`Eq` are derived, i.e. structural. -/
structure FileInfo where
  modification_time : FileTime
  estimated_creation_date : NaiveDateTime
  size : Nat
deriving DecidableEq, Repr

/-! ### Filename-based creation-date inference (src/file_info.rs)

`FileInfo::creation_date_from_name` runs the anchored regex
`^.*-(\d{8})-WA[0-9]{4}\..+$` over the filename and parses the capture
with `%Y%m%d`.  We embed the semantics of that specific regex:

* `.` matches any character other than a newline;
* `\d`/`[0-9]` is modelled as an ASCII digit (chrono's `%Y%m%d` parse
  rejects non-ASCII digits anyway, so the composition is unchanged);
* the greedy leading `.*` under leftmost-first matching makes the capture
  the rightmost position at which the tail pattern matches.
-/

/-- Numeric value of a digit string (most significant first). -/
def digitsToNat (l : List Char) : Nat :=
  l.foldl (fun a c => a * 10 + (c.toNat - '0'.toNat)) 0

/-- Gregorian leap year, as `chrono::NaiveDate` computes validity. -/
def isLeapYear (y : Int) : Bool :=
  y % 4 == 0 && (y % 100 != 0 || y % 400 == 0)

/-- Number of days in a month of a given year. -/
def daysInMonth (y : Int) (m : Nat) : Nat :=
  match m with
  | 1 => 31 | 2 => if isLeapYear y then 29 else 28
  | 3 => 31 | 4 => 30 | 5 => 31 | 6 => 30
  | 7 => 31 | 8 => 31 | 9 => 30 | 10 => 31 | 11 => 30 | 12 => 31
  | _ => 0

/-- Validity of a civil date, as `NaiveDate::parse_from_str` checks it. -/
def validDate (y : Int) (m d : Nat) : Bool :=
  1 ≤ m && m ≤ 12 && 1 ≤ d && d ≤ daysInMonth y m

/-- Does the tail pattern `-(\d{8})-WA[0-9]{4}\..+$` of the filename regex
match at offset `p` of `cs`, with the leading `^.*` consuming `cs.take p`?
(`.` excludes newlines.) -/
def matchAt (cs : List Char) (p : Nat) : Bool :=
  (cs.take p).all (fun c => c ≠ '\n') &&
  (cs.drop p).take 1 == ['-'] &&
  (((cs.drop p).drop 1).take 8).all Char.isDigit &&
  (((cs.drop p).drop 1).take 8).length == 8 &&
  ((cs.drop p).drop 9).take 3 == ['-', 'W', 'A'] &&
  (((cs.drop p).drop 12).take 4).all Char.isDigit &&
  (((cs.drop p).drop 12).take 4).length == 4 &&
  ((cs.drop p).drop 16).take 1 == ['.'] &&
  decide ((cs.drop p).drop 17 ≠ []) &&
  ((cs.drop p).drop 17).all (fun c => c ≠ '\n')

/-- The offset captured by the regex: greedy `^.*` makes it the greatest
matching offset. -/
def capturePos (cs : List Char) : Option Nat :=
  ((List.range (cs.length + 1)).filter (fun p => matchAt cs p)).getLast?

/-- `FileInfo::creation_date_from_name`: the embedded 8-digit date of the
rightmost vendor-convention block, at midnight; `none` when the regex does
not match or the digits are not a valid `%Y%m%d` date. -/
def creation_date_from_name (s : String) : Option NaiveDateTime :=
  match capturePos s.data with
  | none => none
  | some p =>
    let d8 := (s.data.drop (p + 1)).take 8
    let y : Int := digitsToNat (d8.take 4)
    let m := digitsToNat ((d8.drop 4).take 2)
    let d := digitsToNat (d8.drop 6)
    if validDate y m d then some ⟨y, m, d, 0, 0⟩ else none

/-- Civil date from a count of days since 1970-01-01 (the standard
days-to-civil algorithm, as chrono's conversion computes it). -/
def civilFromDays (z0 : Int) : Int × Nat × Nat :=
  let z := z0 + 719468
  let era : Int := Int.fdiv z 146097
  let doe : Int := z - era * 146097
  let yoe : Int :=
    Int.fdiv (doe - Int.fdiv doe 1460 + Int.fdiv doe 36524 - Int.fdiv doe 146096) 365
  let y : Int := yoe + era * 400
  let doy : Int := doe - (365 * yoe + Int.fdiv yoe 4 - Int.fdiv yoe 100)
  let mp : Int := Int.fdiv (5 * doy + 2) 153
  let d : Int := doy - Int.fdiv (153 * mp + 2) 5 + 1
  let m : Int := mp + (if mp < 10 then 3 else -9)
  (y + (if m ≤ 2 then 1 else 0), m.toNat, d.toNat)

/-- `DateTime::<Utc>::from_timestamp(secs, nanos).naive_utc()`:
Euclidean day/second split, then civil conversion. -/
def timestampToNaiveDateTime (ft : FileTime) : NaiveDateTime :=
  let days := Int.fdiv ft.secs 86400
  let sod := (Int.emod ft.secs 86400).toNat
  let c := civilFromDays days
  ⟨c.1, c.2.1, c.2.2, sod, ft.nanos⟩

/-- `FileInfo::new`, given the data the filesystem supplies for the file:
its name, its mtime and its size.  The estimated creation date comes from
the filename when the vendor pattern matches, else from the mtime. -/
def FileInfo.new (filename : String) (mtime : FileTime) (size : Nat) : FileInfo :=
  { modification_time := mtime
    estimated_creation_date :=
      (creation_date_from_name filename).getD (timestampToNaiveDateTime mtime)
    size := size }

/-! ### The index map and its mutation API (src/file_index.rs)

`FileIndex.entries : HashMap<PathBuf, FileInfo>` is modelled as an
association list with unique keys (uniqueness is a hypothesis on theorems
that need it).  Alongside the map we carry the destination tree's on-disk
files (`disk`), so that "the destination file is deleted" is statable.
Mutating operations return the new state together with an optional error,
matching `&mut self` methods returning `Result`: state mutated before an
early return persists. -/

/-- The variants of `Error` (src/error.rs); payload `io::Error` values are
dropped, paths kept. -/
inductive Error where
  | io (p : RelPath)
  | cp (src dst : RelPath)
  | mv (src dst : RelPath)
  | notWhatsAppFolder (p : RelPath)
  | newArchiveFolderNotEmpty (p : RelPath)
  | fileMismatch (src dst : RelPath)
  | fileMissing (p : RelPath)
  | indexEntryMissing
deriving DecidableEq, Repr

/-- The errors a raw filesystem step inside an import can raise:
`FileInfo::new`/`set_modification_time` give `Io`, `safer_copy` gives
`Cp`/`Io`/`Mv`.  (Never `IndexEntryMissing` or `FileMismatch`.) -/
inductive IoErr where
  | io (p : RelPath)
  | cp (src dst : RelPath)
  | mv (src dst : RelPath)
deriving DecidableEq, Repr

/-- Inclusion of step errors into `Error`. -/
def IoErr.toError : IoErr → Error
  | .io p => .io p
  | .cp s d => .cp s d
  | .mv s d => .mv s d

/-- `ActionType` (src/file_index.rs). -/
inductive ActionType where
  | Real
  | Dry
deriving DecidableEq, Repr

/-- An association-list map from relative paths to records. -/
abbrev Entries := List (RelPath × FileInfo)

/-- `HashMap::get`. -/
def lookupE : Entries → RelPath → Option FileInfo
  | [], _ => none
  | e :: rest, p => if e.1 = p then some e.2 else lookupE rest p

/-- `HashMap::contains_key`. -/
def containsE : Entries → RelPath → Bool
  | [], _ => false
  | e :: rest, p => e.1 = p || containsE rest p

/-- `HashMap::insert`: replace the value when present, else add the pair. -/
def insertE (es : Entries) (p : RelPath) (fi : FileInfo) : Entries :=
  if containsE es p then es.map (fun e => if e.1 = p then (p, fi) else e)
  else es ++ [(p, fi)]

/-- `HashMap::remove`. -/
def eraseE (es : Entries) (p : RelPath) : Entries :=
  es.filter (fun e => e.1 != p)

/-- One index's mutable state: the in-memory map, plus the files actually
present in its directory tree (for Real-mode disk effects). -/
structure IndexState where
  entries : Entries
  disk : Entries
deriving DecidableEq, Repr

/-- `FileIndex::remove_file`.  `rmOk` is whether `std::fs::remove_file`
would succeed on this path in Real mode. -/
def remove_file (action : ActionType) (rmOk : Bool) (st : IndexState)
    (p : RelPath) : IndexState × Option Error :=
  if containsE st.entries p then
    if action = .Real && !rmOk then (st, some (.io p))
    else
      let disk := if action = .Real then eraseE st.disk p else st.disk
      ({ entries := eraseE st.entries p, disk := disk }, none)
  else (st, some (.fileMissing p))

/-- `FileIndex::import_file_maybe_metadata`.
* `srcRead`: the outcome of `FileInfo::new(source)` (used in Dry mode);
* `copyStep`: in Real mode, the outcome of `create_dir_all` +
  `safer_copy` + `set_modification_time` + `FileInfo::new(dest)`, bundled:
  `.ok actual` means the copy succeeded and re-reading the destination
  yields `actual` (which is then the record on disk at the destination);
* `cleanupOk`: whether the best-effort `std::fs::remove_file(dest)` in the
  error handler succeeds (its failure is only logged, never raised). -/
def import_file_maybe_metadata (action : ActionType) (cleanupOk : Bool)
    (st : IndexState) (relative_path : RelPath)
    (srcRead : Except IoErr FileInfo) (copyStep : Except IoErr FileInfo)
    (info : Option FileInfo) : IndexState × Option Error :=
  if action = .Real then
    match copyStep with
    | .error e =>
      ({ st with
          disk := if cleanupOk then eraseE st.disk relative_path else st.disk },
        some e.toError)
    | .ok actual =>
      let disk1 := insertE st.disk relative_path actual
      match info with
      | none => ({ st with disk := disk1 }, none)
      | some expected =>
        if actual = expected then
          ({ entries := insertE st.entries relative_path actual, disk := disk1 },
            none)
        else
          ({ st with
              disk := if cleanupOk then eraseE disk1 relative_path else disk1 },
            some (.fileMismatch relative_path relative_path))
  else
    match srcRead with
    | .error e => (st, some e.toError)
    | .ok actual =>
      ({ st with entries := insertE st.entries relative_path actual }, none)

/-- `FileIndex::import_file_with_metadata`. -/
def import_file_with_metadata (action : ActionType) (cleanupOk : Bool)
    (st : IndexState) (relative_path : RelPath)
    (srcRead : Except IoErr FileInfo) (copyStep : Except IoErr FileInfo)
    (info : FileInfo) : IndexState × Option Error :=
  import_file_maybe_metadata action cleanupOk st relative_path srcRead copyStep
    (some info)

/-! ### Mirroring (src/file_index.rs, `mirror_specified` / `mirror_all`)

The per-path I/O oracles become functions of the path.  The returned path
list records which paths were imported (the "Updating changed file" and
"Copying missing file" cases), in order. -/

/-- First pass of `mirror_specified`: for every common path whose records
differ, re-import with the source record as expected metadata. -/
def update_changed_loop (action : ActionType) (cleanupOk : RelPath → Bool)
    (srcRead copyStep : RelPath → Except IoErr FileInfo) (source : Entries)
    (st : IndexState) (imported : List RelPath) :
    List (RelPath × FileInfo) → IndexState × List RelPath × Option Error
  | [] => (st, imported, none)
  | (p, v) :: rest =>
    -- `source.get(rel_path).unwrap()`: `p` is a key of `source` because the
    -- common list was filtered on `source`'s keys, so the default is unused.
    let other := (lookupE source p).getD v
    if v ≠ other then
      match import_file_maybe_metadata action (cleanupOk p) st p (srcRead p)
          (copyStep p) (some other) with
      | (st1, none) =>
        update_changed_loop action cleanupOk srcRead copyStep source st1
          (imported ++ [p]) rest
      | (st1, some e) => (st1, imported, some e)
    else
      update_changed_loop action cleanupOk srcRead copyStep source st imported
        rest

/-- Second pass of `mirror_specified`: import every path present in the
(filtrated) source map but absent from the destination map. -/
def copy_missing_loop (action : ActionType) (cleanupOk : RelPath → Bool)
    (srcRead copyStep : RelPath → Except IoErr FileInfo)
    (st : IndexState) (imported : List RelPath) :
    List (RelPath × FileInfo) → IndexState × List RelPath × Option Error
  | [] => (st, imported, none)
  | (p, v) :: rest =>
    match import_file_maybe_metadata action (cleanupOk p) st p (srcRead p)
        (copyStep p) (some v) with
    | (st1, none) =>
      copy_missing_loop action cleanupOk srcRead copyStep st1
        (imported ++ [p]) rest
    | (st1, some e) => (st1, imported, some e)

/-- `FileIndex::mirror_specified`.  `files` is the requested path
collection (deduplicated into the `HashSet`), `source_entries` the source
index's map. -/
def mirror_specified (action : ActionType) (st : IndexState)
    (source_entries : Entries) (files : List RelPath)
    (cleanupOk : RelPath → Bool)
    (srcRead copyStep : RelPath → Except IoErr FileInfo) :
    IndexState × List RelPath × Option Error :=
  let filesD := files.dedup
  let source := source_entries.filter (fun e => filesD.contains e.1)
  if filesD.length ≠ source.length then (st, [], some .indexEntryMissing)
  else
    let common := st.entries.filter (fun e => containsE source e.1)
    match update_changed_loop action cleanupOk srcRead copyStep source st []
        common with
    | (st1, imported1, none) =>
      let missing := source.filter (fun e => !containsE st1.entries e.1)
      copy_missing_loop action cleanupOk srcRead copyStep st1 imported1 missing
    | r => r

/-- `FileIndex::mirror_all`. -/
def mirror_all (action : ActionType) (st : IndexState)
    (source_entries : Entries) (cleanupOk : RelPath → Bool)
    (srcRead copyStep : RelPath → Except IoErr FileInfo) :
    IndexState × List RelPath × Option Error :=
  mirror_specified action st source_entries (source_entries.map (fun e => e.1))
    cleanupOk srcRead copyStep

/-! ### Retention policy (src/filter.rs, src/file_index.rs)

`FileScore::evaluate` is `f64`-valued (`-size`, `-timestamp_millis`, or an
exponential-decay product) and `FilePredicate::matches` reads the clock
for `AgeLessThan`; the claims about the partition quantify over any
scoring function and any predicate, so a `FileQuery` carries the scoring
function as a map into `ℚ` (a total order standing in for non-NaN `f64`
comparisons at a fixed evaluation time) and the predicate as a boolean
map. -/

/-- `DataLimit` (src/filter.rs). -/
inductive DataLimit where
  | Infinite
  | Bytes (count : Nat)
deriving DecidableEq, Repr

/-- `FileQuery` (src/filter.rs), with `order` and `priority` as the
functions their `evaluate`/`matches` methods denote at a fixed clock. -/
structure FileQuery where
  order : FileInfo → ℚ
  data_limit : DataLimit
  priority : FileInfo → Bool

/-- `FileIndex::is_media_file`: first component `Media`, filename not
`.nomedia` (a pathless filename counts as media, as `map_or(true, ..)`). -/
def is_media_file (p : RelPath) : Bool :=
  p.head? == some "Media" && p.getLast?.all (fun f => f ≠ ".nomedia")

/-- `FileIndex::media_files`. -/
def media_files (es : Entries) : Entries :=
  es.filter (fun e => is_media_file e.1)

/-- `FileIndex::media_size_bytes`. -/
def media_size_bytes (es : Entries) : Nat :=
  ((media_files es).map (fun e => e.2.size)).sum

/-- The composite key of `get_delete_retain_candidates`: class 1 for
files the priority predicate matches, class 0 otherwise, then the score. -/
def calculate_priority (q : FileQuery) (fi : FileInfo) : Nat × ℚ :=
  (if q.priority fi then 1 else 0, q.order fi)

/-- Lexicographic comparison of composite keys (what
`(i32, f64)::partial_cmp` decides for non-NaN scores). -/
def keyLe (k l : Nat × ℚ) : Prop :=
  k.1 < l.1 ∨ (k.1 = l.1 ∧ k.2 ≤ l.2)

instance : DecidableRel keyLe := fun k l => by
  unfold keyLe; infer_instance

/-- The sort relation on media entries. -/
def entryLe (q : FileQuery) (a b : RelPath × FileInfo) : Prop :=
  keyLe (calculate_priority q a.2) (calculate_priority q b.2)

instance (q : FileQuery) : DecidableRel (entryLe q) := fun a b => by
  unfold entryLe; infer_instance

/-- The media entries sorted ascending by the composite key
(`sort_unstable_by` with the total comparator). -/
def sorted_media_entries (es : Entries) (q : FileQuery) :
    List (RelPath × FileInfo) :=
  List.insertionSort (entryLe q) (media_files es)

/-- The `for (idx, entry)` loop of `get_delete_retain_candidates`: `count`
is set to `idx` each iteration, the loop breaks once the running total is
within the limit, else the entry's size is subtracted
(`saturating_sub` = `Nat` subtraction). -/
def walk_count (limit : Nat) : Nat → Nat → Nat → List (RelPath × FileInfo) → Nat
  | _, _, count, [] => count
  | idx, total, _, (_, entry) :: rest =>
    if total ≤ limit then idx
    else walk_count limit (idx + 1) (total - entry.size) idx rest

/-- `FileIndex::get_delete_retain_candidates`: `(to_delete, to_retain)`
path lists.  `split_off(count)` leaves the first `count` sorted entries as
the delete list and returns the rest as the retain list. -/
def get_delete_retain_candidates (es : Entries) (q : FileQuery) :
    List RelPath × List RelPath :=
  let media_entries := sorted_media_entries es q
  match q.data_limit with
  | .Infinite => ([], media_entries.map (fun e => e.1))
  | .Bytes limit =>
    let total := media_size_bytes es
    let count := walk_count limit 0 total 0 media_entries
    ((media_entries.take count).map (fun e => e.1),
      (media_entries.drop count).map (fun e => e.1))

/-- Declarative description of the truncation point: the first index `k`
at which the total minus the sizes of the first `k` sorted entries is
within the limit; if no index of the list satisfies this, all entries but
the last are walked (`length - 1`). -/
def stop_index (limit total : Nat) (l : List (RelPath × FileInfo)) : Nat :=
  match (List.range l.length).find?
      (fun k => total - ((l.take k).map (fun e => e.2.size)).sum ≤ limit) with
  | some k => k
  | none => l.length - 1

/-! ### Backup rotation (src/file_index.rs, `clean_*` methods)

`clean_previous_dbs` builds its matcher from the pattern

  `msgstore(?P<incremental>-increment-\d+)?-(<?P<date>\d{4}-\d{2}-\d{2})\.`

Note the second group: it is `(` `<?` `P<date>` ... `)` — a plain group
whose body starts with an *optional literal `<`* followed by the *literal
seven characters* `P<date>`; it is not a named group.  So the pattern only
matches path strings containing that literal text, and since no group
named `date` exists, any successful match panics at
`captures.name("date").expect(..)`.  We embed that actual semantics. -/

/-- Outcome of an operation that can also panic (`expect`/`panic!` in the
source). -/
inductive RunError where
  | err (e : Error)
  | panicked
deriving DecidableEq, Repr

/-- A `PathBuf`'s `to_string_lossy`: components joined by `/`. -/
def pathToString (p : RelPath) : String :=
  String.intercalate "/" p

/-- `\d{4}-\d{2}-\d{2}\.` at the start of `v`. -/
def dateDigitsDot (v : List Char) : Bool :=
  (v.take 4).all Char.isDigit && (v.take 4).length == 4 &&
  (v.drop 4).take 1 == ['-'] &&
  ((v.drop 5).take 2).all Char.isDigit && ((v.drop 5).take 2).length == 2 &&
  (v.drop 7).take 1 == ['-'] &&
  ((v.drop 8).take 2).all Char.isDigit && ((v.drop 8).take 2).length == 2 &&
  (v.drop 10).take 1 == ['.']

/-- The `<?P<date>\d{4}-\d{2}-\d{2}\.` part of the broken group, with the
optional `<` tried greedily first. -/
def brokenGroupTail (u : List Char) : Bool :=
  u.take 7 == "P<date>".data && dateDigitsDot (u.drop 7)

/-- The broken dated-snapshot pattern matching at the start of `t`. -/
def brokenDbMatchHere (t : List Char) : Bool :=
  t.take 8 == "msgstore".data &&
  (let r := t.drop 8
   -- greedy optional `(?P<incremental>-increment-\d+)?` (maximal digits)
   let incTail : Bool :=
     r.take 11 == "-increment-".data &&
     (let ds := (r.drop 11).takeWhile Char.isDigit
      decide (ds.length ≥ 1) && brokenDash ((r.drop 11).drop ds.length))
   incTail || brokenDash r)
where
  /-- the mandatory `-` then the broken group then nothing more needed. -/
  brokenDash (r : List Char) : Bool :=
    r.take 1 == ['-'] &&
    ((r.drop 1).take 1 == ['<'] && brokenGroupTail (r.drop 2) ||
      brokenGroupTail (r.drop 1))

/-- Unanchored search (`Regex::captures`) of the broken pattern. -/
def brokenDbSearch (cs : List Char) : Bool :=
  (List.range (cs.length + 1)).any (fun p => brokenDbMatchHere (cs.drop p))

/-- `FileIndex::clean_previous_dbs`.  The `filter_map` evaluates the
broken regex on every `Databases` path: a match would immediately panic at
the missing `date` capture, and with no match `path_dates` is empty, so
`unique_dates.len() = 0 ≤ keep` and the method returns `Ok` deleting
nothing. -/
def clean_previous_dbs (keep : Nat) (st : IndexState) :
    IndexState × Option RunError :=
  let _ := keep
  let dbPaths := (st.entries.map (fun e => e.1)).filter
    (fun p => p.head? == some "Databases")
  if dbPaths.any (fun p => brokenDbSearch (pathToString p).data) then
    (st, some .panicked)
  else (st, none)

/-- `DbInfo` (src/file_index.rs). -/
structure DbInfo where
  is_incremental : Bool
  file_extension : List Char
  last_modified : FileTime
deriving DecidableEq, Repr

/-- `msgstore(?P<incremental>-increment-\d+)?\.db\.(?P<extension>.*)`
matching at the start of `t`: returns `(is_incremental, extension)`.  The
optional incremental group is tried greedily; `.*` captures to the end of
the filename (stopping at a newline). -/
def currentDbMatchHere (t : List Char) : Option (Bool × List Char) :=
  if t.take 8 == "msgstore".data then
    let r := t.drop 8
    let incTail : Option (Bool × List Char) :=
      if r.take 11 == "-increment-".data then
        let ds := (r.drop 11).takeWhile Char.isDigit
        let rest := (r.drop 11).drop ds.length
        if ds.length ≥ 1 && rest.take 4 == ".db.".data then
          some (true, (rest.drop 4).takeWhile (fun c => c ≠ '\n'))
        else none
      else none
    match incTail with
    | some v => some v
    | none =>
      if r.take 4 == ".db.".data then
        some (false, (r.drop 4).takeWhile (fun c => c ≠ '\n'))
      else none
  else none

/-- Leftmost unanchored match of the current-db pattern on a filename. -/
def currentDbSearch (cs : List Char) : Option (Bool × List Char) :=
  (List.range (cs.length + 1)).findSome?
    (fun p => currentDbMatchHere (cs.drop p))

/-- `Iterator::max_by_key(last_modified)`: the last of the maxima. -/
def maxByLastModified (l : List DbInfo) : Option DbInfo :=
  l.foldl
    (fun acc i =>
      match acc with
      | none => some i
      | some j => if FileTime.le j.last_modified i.last_modified then some i else some j)
    none

/-- The deletion loop of `clean_current_db`: remove stale-format files and
incrementals older than the current full backup. -/
def clean_current_loop (action : ActionType) (rmOk : Bool)
    (ext : List Char) (lm : FileTime) (st : IndexState) :
    List (RelPath × DbInfo) → IndexState × Option RunError
  | [] => (st, none)
  | (p, i) :: rest =>
    if i.file_extension ≠ ext ∨ (i.is_incremental ∧ FileTime.lt i.last_modified lm) then
      match remove_file action rmOk st p with
      | (st1, none) => clean_current_loop action rmOk ext lm st1 rest
      | (st1, some e) => (st1, some (.err e))
    else clean_current_loop action rmOk ext lm st rest

/-- `FileIndex::clean_current_db`. -/
def clean_current_db (action : ActionType) (rmOk : Bool) (st : IndexState) :
    IndexState × Option RunError :=
  let db_infos : List (RelPath × DbInfo) := st.entries.filterMap
    (fun e =>
      if e.1.head? == some "Databases" then
        match e.1.getLast? with
        | none => none
        | some name =>
          (currentDbSearch name.data).map
            (fun m => (e.1, ⟨m.1, m.2, e.2.modification_time⟩))
      else none)
  match maxByLastModified ((db_infos.map (fun e => e.2)).filter
      (fun i => !i.is_incremental)) with
  | none => (st, some .panicked)  -- `.expect("Unable to find current database")`
  | some latest =>
    clean_current_loop action rmOk latest.file_extension latest.last_modified
      st db_infos

/-- `FileIndex::clean_old_dbs`: both passes in sequence. -/
def clean_old_dbs (keep : Nat) (action : ActionType) (rmOk : Bool)
    (st : IndexState) : IndexState × Option RunError :=
  match clean_previous_dbs keep st with
  | (st1, none) => clean_current_db action rmOk st1
  | r => r

/-! ### Index construction (src/file_index.rs, `rebuild_index`)

The directory tree is a mutual inductive; the walk skips every entry named
`.waa` (the code checks `entry.path().file_name() == TAG_NAME` on each
entry of each visited directory, so the skip applies at any depth and to
directories too), indexes regular files via `FileInfo::new`, recurses into
directories and warns on anything else.  The code drains a `VecDeque`
(breadth-first); the index being an unordered map, we collect the same
entries by structural recursion. -/

mutual
inductive FsTree where
  | file (mtime : FileTime) (size : Nat) : FsTree
  | dir (entries : FsEntries) : FsTree
  | other : FsTree
deriving DecidableEq
inductive FsEntries where
  | nil : FsEntries
  | cons (name : String) (t : FsTree) (rest : FsEntries) : FsEntries
deriving DecidableEq
end

mutual
/-- Walk one directory entry: the collected records plus a warning count. -/
def walkTree (pre : RelPath) (name : String) : FsTree → Entries × Nat
  | .file mtime size => ([(pre ++ [name], FileInfo.new name mtime size)], 0)
  | .dir es => walkEntries (pre ++ [name]) es
  | .other => ([], 1)
/-- Walk a directory's entry list. -/
def walkEntries (pre : RelPath) : FsEntries → Entries × Nat
  | .nil => ([], 0)
  | .cons name t rest =>
    if name = ".waa" then walkEntries pre rest
    else
      let a := walkTree pre name t
      let b := walkEntries pre rest
      (a.1 ++ b.1, a.2 + b.2)
end

/-- `FileIndex::rebuild_index` over a tree: the entries map it builds and
the number of `warn!` diagnostics it emits. -/
def rebuild_index (root : FsEntries) : Entries × Nat :=
  walkEntries [] root

/-- Find a directory entry by name (first occurrence). -/
def findEntry : FsEntries → String → Option FsTree
  | .nil, _ => none
  | .cons n t rest, name => if n = name then some t else findEntry rest name

/-- Resolve a relative path in a tree. -/
def getPath (es : FsEntries) : RelPath → Option FsTree
  | [] => some (.dir es)
  | n :: rest =>
    match findEntry es n with
    | none => none
    | some t =>
      match rest with
      | [] => some t
      | _ :: _ =>
        match t with
        | .dir es1 => getPath es1 rest
        | _ => none

mutual
/-- Count of the non-file, non-directory entries a walk would warn about
(entries named `.waa` are skipped before the type check). -/
def countOthersT : FsTree → Nat
  | .file _ _ => 0
  | .dir es => countOthersE es
  | .other => 1
/-- List version of `countOthersT`. -/
def countOthersE : FsEntries → Nat
  | .nil => 0
  | .cons name t rest =>
    (if name = ".waa" then 0 else countOthersT t) + countOthersE rest
end

/-! ### Map lemmas -/

theorem contains_iff_mem_keys {es : Entries} {p : RelPath} :
    containsE es p = true ↔ p ∈ es.map (fun e => e.1) := by
  induction es with
  | nil => simp [containsE]
  | cons e rest ih =>
    simp only [containsE, List.map_cons, List.mem_cons, Bool.or_eq_true,
      decide_eq_true_eq, ih]
    tauto

theorem lookupE_eq_none_iff {es : Entries} {p : RelPath} :
    lookupE es p = none ↔ containsE es p = false := by
  induction es with
  | nil => simp [lookupE, containsE]
  | cons e rest ih =>
    by_cases h : e.1 = p <;> simp [lookupE, containsE, h, ih]

theorem lookupE_isSome_iff {es : Entries} {p : RelPath} :
    (∃ v, lookupE es p = some v) ↔ containsE es p = true := by
  constructor
  · rintro ⟨v, hv⟩
    cases hc : containsE es p
    · rw [lookupE_eq_none_iff.mpr hc] at hv
      cases hv
    · rfl
  · intro hc
    cases hl : lookupE es p with
    | none =>
      rw [lookupE_eq_none_iff.mp hl] at hc
      cases hc
    | some v => exact ⟨v, rfl⟩

theorem lookupE_mem {es : Entries} {p : RelPath} {v : FileInfo}
    (h : lookupE es p = some v) : (p, v) ∈ es := by
  induction es with
  | nil => simp [lookupE] at h
  | cons e rest ih =>
    by_cases he : e.1 = p
    · simp only [lookupE, he, if_true, Option.some.injEq] at h
      have hpv : (p, v) = e := by
        cases e
        simp_all
      rw [hpv]
      exact List.mem_cons_self _ _
    · simp only [lookupE, he, if_false] at h
      exact List.mem_cons_of_mem _ (ih h)

theorem mem_lookupE {es : Entries} {p : RelPath} {v : FileInfo}
    (hn : (es.map (fun e => e.1)).Nodup) (h : (p, v) ∈ es) :
    lookupE es p = some v := by
  induction es with
  | nil => simp at h
  | cons e rest ih =>
    simp only [List.map_cons, List.nodup_cons] at hn
    rcases List.mem_cons.mp h with h | h
    · subst h
      simp [lookupE]
    · have hne : e.1 ≠ p := by
        intro hcontra
        exact hn.1 (hcontra ▸ (List.mem_map.mpr ⟨(p, v), h, rfl⟩))
      simp only [lookupE, hne, if_false]
      exact ih hn.2 h

theorem lookupE_map_replace_self {es : Entries} {p : RelPath} (fi : FileInfo)
    (h : containsE es p = true) :
    lookupE (es.map (fun e => if e.1 = p then (p, fi) else e)) p = some fi := by
  induction es with
  | nil => simp [containsE] at h
  | cons e rest ih =>
    simp only [containsE, Bool.or_eq_true, decide_eq_true_eq] at h
    by_cases he : e.1 = p
    · simp [lookupE, he]
    · have h2 : containsE rest p = true := h.resolve_left he
      simp only [List.map_cons, he, if_false]
      simp only [lookupE, he, if_false]
      exact ih h2

theorem lookupE_map_replace_ne {es : Entries} {p q : RelPath} (fi : FileInfo)
    (h : q ≠ p) :
    lookupE (es.map (fun e => if e.1 = p then (p, fi) else e)) q
      = lookupE es q := by
  induction es with
  | nil => simp
  | cons e rest ih =>
    by_cases he : e.1 = p
    · have hpq : ¬ (p = q) := fun hh => h hh.symm
      have heq : ¬ (e.1 = q) := he ▸ hpq
      simp only [List.map_cons, he, if_true]
      simp only [lookupE, hpq, heq, if_false]
      exact ih
    · simp only [List.map_cons, he, if_false]
      by_cases heq : e.1 = q
      · simp [lookupE, heq]
      · simp only [lookupE, heq, if_false]
        exact ih

theorem lookupE_append_single_self {es : Entries} {p : RelPath}
    (fi : FileInfo) (h : containsE es p = false) :
    lookupE (es ++ [(p, fi)]) p = some fi := by
  induction es with
  | nil => simp [lookupE]
  | cons e rest ih =>
    simp only [containsE, Bool.or_eq_false_iff, decide_eq_false_iff_not] at h
    simp only [List.cons_append, lookupE, h.1, if_false]
    exact ih h.2

theorem lookupE_append_single_ne {es : Entries} {p q : RelPath}
    (fi : FileInfo) (h : q ≠ p) :
    lookupE (es ++ [(p, fi)]) q = lookupE es q := by
  induction es with
  | nil => simp [lookupE, Ne.symm h]
  | cons e rest ih =>
    by_cases he : e.1 = q <;> simp [lookupE, he, ih]

theorem lookupE_insertE_self (es : Entries) (p : RelPath) (fi : FileInfo) :
    lookupE (insertE es p fi) p = some fi := by
  unfold insertE
  by_cases h : containsE es p = true
  · simpa [h] using lookupE_map_replace_self fi h
  · simp only [h, if_false]
    exact lookupE_append_single_self fi (by simpa using h)

theorem lookupE_insertE_ne (es : Entries) {p q : RelPath} (fi : FileInfo)
    (h : q ≠ p) : lookupE (insertE es p fi) q = lookupE es q := by
  unfold insertE
  by_cases hc : containsE es p = true
  · simpa [hc] using lookupE_map_replace_ne fi h
  · simpa [hc] using lookupE_append_single_ne fi h

theorem lookupE_eraseE_self (es : Entries) (p : RelPath) :
    lookupE (eraseE es p) p = none := by
  induction es with
  | nil => simp [lookupE, eraseE]
  | cons e rest ih =>
    simp only [eraseE, List.filter_cons] at *
    by_cases he : e.1 = p
    · simpa [he] using ih
    · simpa [he, lookupE] using ih

theorem containsE_insertE_self (es : Entries) (p : RelPath) (fi : FileInfo) :
    containsE (insertE es p fi) p = true := by
  have := lookupE_insertE_self es p fi
  exact lookupE_isSome_iff.mp ⟨fi, this⟩

theorem containsE_insertE_ne (es : Entries) {p q : RelPath} (fi : FileInfo)
    (h : q ≠ p) : containsE (insertE es p fi) q = containsE es q := by
  rcases hq : containsE es q with _ | _
  · have := lookupE_eq_none_iff.mpr hq
    rw [← lookupE_insertE_ne es fi h] at this
    exact lookupE_eq_none_iff.mp this
  · obtain ⟨v, hv⟩ := lookupE_isSome_iff.mpr hq
    exact lookupE_isSome_iff.mp ⟨v, by rw [lookupE_insertE_ne es fi h]; exact hv⟩

/-! ### C6: remove_file -/

/-- C6: `remove_file p` fails with `FileMissing` leaving the map unchanged
whenever `p` is not a key; when `p` is present and the Real-mode disk
deletion fails, the error propagates with the map entry still present; the
map entry is removed only once the disk delete succeeds (and in Real mode
the disk file goes with it). -/
theorem claim_C6_remove_file (action : ActionType) (rmOk : Bool)
    (st : IndexState) (p : RelPath) :
    (containsE st.entries p = false →
      remove_file action rmOk st p = (st, some (.fileMissing p)))
    ∧ (containsE st.entries p = true → action = .Real → rmOk = false →
      remove_file action rmOk st p = (st, some (.io p)))
    ∧ (containsE st.entries p = true → (action = .Real → rmOk = true) →
      remove_file action rmOk st p =
        ({ entries := eraseE st.entries p,
           disk := if action = .Real then eraseE st.disk p else st.disk },
          none)) := by
  refine ⟨?_, ?_, ?_⟩
  · intro h
    simp [remove_file, h]
  · intro h h2 h3
    subst h2; subst h3
    simp [remove_file, h]
  · intro h h2
    cases action with
    | Real =>
      have h3 := h2 rfl
      subst h3
      simp [remove_file, h]
    | Dry => simp [remove_file, h]

/-- Witness for C6 at a concrete input (the `FileMissing` branch). -/
theorem claim_C6_remove_file_witness :
    containsE (IndexState.mk [] []).entries ["x"] = false ∧
    remove_file .Real true ⟨[], []⟩ ["x"]
      = (⟨[], []⟩, some (.fileMissing ["x"])) :=
  ⟨by decide,
    (claim_C6_remove_file .Real true ⟨[], []⟩ ["x"]).1 (by decide)⟩

/-! ### C5: import with expected metadata, mismatch case -/

/-- C5 (amended): when the Real-mode copy produces a record `actual` that
is not structurally equal to the expected record, the import returns the
`FileMismatch` error (regardless of whether the best-effort cleanup
succeeds — a cleanup failure never replaces it), the destination file is
gone when the cleanup succeeds, and the entries map is left unchanged —
no entry is inserted or updated for the path (in particular a path absent
before the import is still absent). -/
theorem claim_C5_import_mismatch (cleanupOk : Bool) (st : IndexState)
    (rel : RelPath) (srcRead : Except IoErr FileInfo)
    (actual expected : FileInfo) (h : actual ≠ expected) :
    (import_file_maybe_metadata .Real cleanupOk st rel srcRead (.ok actual)
        (some expected)).2 = some (.fileMismatch rel rel)
    ∧ (import_file_maybe_metadata .Real cleanupOk st rel srcRead (.ok actual)
        (some expected)).1.entries = st.entries
    ∧ (cleanupOk = true →
        lookupE (import_file_maybe_metadata .Real cleanupOk st rel srcRead
          (.ok actual) (some expected)).1.disk rel = none) := by
  refine ⟨?_, ?_, ?_⟩
  · simp [import_file_maybe_metadata, h]
  · simp [import_file_maybe_metadata, h]
  · intro hc
    subst hc
    simp [import_file_maybe_metadata, h, lookupE_eraseE_self]

/-- Witness for C5 at a concrete input. -/
theorem claim_C5_import_mismatch_witness :
    (import_file_maybe_metadata .Real true ⟨[], []⟩ ["f"]
        (.ok ⟨⟨0, 0⟩, ⟨1970, 1, 1, 0, 0⟩, 1⟩)
        (.ok ⟨⟨0, 0⟩, ⟨1970, 1, 1, 0, 0⟩, 1⟩)
        (some ⟨⟨0, 0⟩, ⟨1970, 1, 1, 0, 0⟩, 2⟩)).2
      = some (.fileMismatch ["f"] ["f"]) :=
  (claim_C5_import_mismatch true ⟨[], []⟩ ["f"]
    (.ok ⟨⟨0, 0⟩, ⟨1970, 1, 1, 0, 0⟩, 1⟩) ⟨⟨0, 0⟩, ⟨1970, 1, 1, 0, 0⟩, 1⟩
    ⟨⟨0, 0⟩, ⟨1970, 1, 1, 0, 0⟩, 2⟩ (by decide)).1

/-- Counterexample to C5 as stated: when the destination index already
held an entry for the path (the mirror "changed file" case), the failed
failed copy leaves that entry in the map, so the index still has an entry
for the relative path after the mismatch. -/
theorem claim_C5_import_mismatch_counterexample :
    (import_file_maybe_metadata .Real true
        ⟨[(["f"], ⟨⟨0, 0⟩, ⟨1970, 1, 1, 0, 0⟩, 3⟩)],
          [(["f"], ⟨⟨0, 0⟩, ⟨1970, 1, 1, 0, 0⟩, 3⟩)]⟩
        ["f"]
        (.ok ⟨⟨0, 0⟩, ⟨1970, 1, 1, 0, 0⟩, 1⟩)
        (.ok ⟨⟨0, 0⟩, ⟨1970, 1, 1, 0, 0⟩, 1⟩)
        (some ⟨⟨0, 0⟩, ⟨1970, 1, 1, 0, 0⟩, 2⟩)).2
      = some (.fileMismatch ["f"] ["f"])
    ∧ lookupE (import_file_maybe_metadata .Real true
        ⟨[(["f"], ⟨⟨0, 0⟩, ⟨1970, 1, 1, 0, 0⟩, 3⟩)],
          [(["f"], ⟨⟨0, 0⟩, ⟨1970, 1, 1, 0, 0⟩, 3⟩)]⟩
        ["f"]
        (.ok ⟨⟨0, 0⟩, ⟨1970, 1, 1, 0, 0⟩, 1⟩)
        (.ok ⟨⟨0, 0⟩, ⟨1970, 1, 1, 0, 0⟩, 1⟩)
        (some ⟨⟨0, 0⟩, ⟨1970, 1, 1, 0, 0⟩, 2⟩)).1.entries ["f"]
      = some ⟨⟨0, 0⟩, ⟨1970, 1, 1, 0, 0⟩, 3⟩ := by
  decide

/-! ### C4: mirror_specified validation -/

theorem length_filter_keys (es : Entries) (f : RelPath → Bool) :
    (es.filter (fun e => f e.1)).length
      = ((es.map (fun e => e.1)).filter f).length := by
  induction es with
  | nil => rfl
  | cons e rest ih =>
    by_cases h : f e.1 <;> simp [List.filter_cons, h, ih]

theorem filter_contains_length_iff {K F : List RelPath} (hK : K.Nodup)
    (hF : F.Nodup) :
    (K.filter F.contains).length = F.length ↔ ∀ p ∈ F, p ∈ K := by
  have hIK : (K.filter F.contains).toFinset = K.toFinset ∩ F.toFinset := by
    ext x
    simp [List.mem_filter, List.elem_iff]
  have hIlen : (K.filter F.contains).length
      = (K.toFinset ∩ F.toFinset).card := by
    rw [← hIK]
    exact (List.toFinset_card_of_nodup (hK.filter _)).symm
  have hFlen : F.length = F.toFinset.card :=
    (List.toFinset_card_of_nodup hF).symm
  rw [hIlen, hFlen]
  constructor
  · intro hcard p hp
    have hsub : K.toFinset ∩ F.toFinset ⊆ F.toFinset :=
      Finset.inter_subset_right
    have heq : K.toFinset ∩ F.toFinset = F.toFinset :=
      Finset.eq_of_subset_of_card_le hsub (le_of_eq hcard.symm)
    have hmemi : p ∈ K.toFinset ∩ F.toFinset := by
      rw [heq]
      exact List.mem_toFinset.mpr hp
    exact List.mem_toFinset.mp (Finset.mem_inter.mp hmemi).1
  · intro hsub
    congr 1
    rw [Finset.inter_eq_right]
    intro x hx
    exact List.mem_toFinset.mpr (hsub x (List.mem_toFinset.mp hx))

theorem import_error_ne_iem (action : ActionType) (cleanupOk : Bool)
    (st : IndexState) (p : RelPath) (sr cp : Except IoErr FileInfo)
    (i : Option FileInfo) :
    (import_file_maybe_metadata action cleanupOk st p sr cp i).2
      ≠ some .indexEntryMissing := by
  unfold import_file_maybe_metadata
  by_cases ha : action = .Real
  · simp only [ha, if_true]
    rcases cp with e | actual
    · cases e <;> intro h <;> simp [IoErr.toError] at h
    · rcases i with _ | expected
      · intro h
        simp at h
      · by_cases hae : actual = expected <;> intro h <;> simp [hae] at h
  · simp only [ha, if_false]
    rcases sr with e | actual
    · cases e <;> intro h <;> simp [IoErr.toError] at h
    · intro h
      simp at h

theorem ucl_error_ne_iem (action : ActionType) (cleanupOk : RelPath → Bool)
    (srcRead copyStep : RelPath → Except IoErr FileInfo) (source : Entries)
    (st : IndexState) (imported : List RelPath)
    (L : List (RelPath × FileInfo)) :
    (update_changed_loop action cleanupOk srcRead copyStep source st imported
        L).2.2 ≠ some .indexEntryMissing := by
  induction L generalizing st imported with
  | nil => simp [update_changed_loop]
  | cons e rest ih =>
    obtain ⟨p, v⟩ := e
    simp only [update_changed_loop]
    by_cases hv : v ≠ (lookupE source p).getD v
    · rw [if_pos hv]
      rcases himp : import_file_maybe_metadata action (cleanupOk p) st p
          (srcRead p) (copyStep p) (some ((lookupE source p).getD v)) with
        ⟨st1, err⟩
      cases err with
      | none => exact ih st1 (imported ++ [p])
      | some e0 =>
        have hne := import_error_ne_iem action (cleanupOk p) st p (srcRead p)
          (copyStep p) (some ((lookupE source p).getD v))
        rw [himp] at hne
        exact hne
    · rw [if_neg hv]
      exact ih st imported

theorem cml_error_ne_iem (action : ActionType) (cleanupOk : RelPath → Bool)
    (srcRead copyStep : RelPath → Except IoErr FileInfo)
    (st : IndexState) (imported : List RelPath)
    (L : List (RelPath × FileInfo)) :
    (copy_missing_loop action cleanupOk srcRead copyStep st imported L).2.2
      ≠ some .indexEntryMissing := by
  induction L generalizing st imported with
  | nil => simp [copy_missing_loop]
  | cons e rest ih =>
    obtain ⟨p, v⟩ := e
    simp only [copy_missing_loop]
    rcases himp : import_file_maybe_metadata action (cleanupOk p) st p
        (srcRead p) (copyStep p) (some v) with ⟨st1, err⟩
    cases err with
    | none => simpa [himp] using ih st1 (imported ++ [p])
    | some e0 =>
      have := import_error_ne_iem action (cleanupOk p) st p (srcRead p)
        (copyStep p) (some v)
      rw [himp] at this
      simpa [himp] using this

/-- The validation inequality of `mirror_specified` holds exactly when
some requested path is missing from the source map. -/
theorem mirror_validation_iff (source_entries : Entries)
    (files : List RelPath)
    (hs : (source_entries.map (fun e => e.1)).Nodup) :
    files.dedup.length
        ≠ (source_entries.filter
            (fun e => files.dedup.contains e.1)).length
      ↔ ∃ p ∈ files, containsE source_entries p = false := by
  rw [length_filter_keys]
  rw [ne_comm]
  rw [Ne, (filter_contains_length_iff hs files.nodup_dedup)]
  push_neg
  constructor
  · rintro ⟨p, hp, hnp⟩
    refine ⟨p, (List.mem_dedup.mp hp), ?_⟩
    rcases hc : containsE source_entries p with _ | _
    · rfl
    · exact absurd (contains_iff_mem_keys.mp hc) hnp
  · rintro ⟨p, hp, hc⟩
    refine ⟨p, List.mem_dedup.mpr hp, ?_⟩
    intro hmem
    rw [contains_iff_mem_keys.mpr hmem] at hc
    cases hc

/-- C4: `mirror_specified` returns `IndexEntryMissing` iff some requested
path is absent from the source index's map, and in that case it returns
before performing any import, leaving the destination state (in
particular its map) unchanged. -/
theorem claim_C4_mirror_index_entry_missing (action : ActionType)
    (st : IndexState) (source_entries : Entries) (files : List RelPath)
    (cleanupOk : RelPath → Bool)
    (srcRead copyStep : RelPath → Except IoErr FileInfo)
    (hs : (source_entries.map (fun e => e.1)).Nodup) :
    ((mirror_specified action st source_entries files cleanupOk srcRead
          copyStep).2.2 = some .indexEntryMissing
      ↔ ∃ p ∈ files, containsE source_entries p = false)
    ∧ ((∃ p ∈ files, containsE source_entries p = false) →
        mirror_specified action st source_entries files cleanupOk srcRead
          copyStep = (st, [], some .indexEntryMissing)) := by
  by_cases hlen : files.dedup.length
      ≠ (source_entries.filter (fun e => files.dedup.contains e.1)).length
  · have hex := (mirror_validation_iff source_entries files hs).mp hlen
    have hmain : mirror_specified action st source_entries files cleanupOk
        srcRead copyStep = (st, [], some .indexEntryMissing) := by
      simp only [mirror_specified]
      rw [if_pos hlen]
    rw [hmain]
    exact ⟨⟨fun _ => hex, fun _ => rfl⟩, fun _ => rfl⟩
  · have hnex := (mirror_validation_iff source_entries files hs).not.mp hlen
    refine ⟨⟨fun habs => ?_, fun hex => absurd hex hnex⟩,
      fun hex => absurd hex hnex⟩
    exfalso
    simp only [mirror_specified] at habs
    rw [if_neg hlen] at habs
    set source := source_entries.filter (fun e => files.dedup.contains e.1)
      with hsourcedef
    set common := st.entries.filter (fun e => containsE source e.1)
      with hcommondef
    rcases h1 : update_changed_loop action cleanupOk srcRead copyStep source
        st [] common with ⟨st1, imp1, err1⟩
    rw [h1] at habs
    cases err1 with
    | none =>
      exact cml_error_ne_iem action cleanupOk srcRead copyStep st1 imp1
        (source.filter (fun e => !containsE st1.entries e.1)) habs
    | some e0 =>
      have h2 := ucl_error_ne_iem action cleanupOk srcRead copyStep source st
        [] common
      rw [h1] at h2
      exact h2 habs

/-- Witness for C4 at a concrete input: requesting a path absent from the
source map fails with `IndexEntryMissing` and leaves the destination
untouched. -/
theorem claim_C4_mirror_index_entry_missing_witness :
    (∃ p ∈ [(["q"] : RelPath)], containsE [] p = false) ∧
    mirror_specified .Real ⟨[(["d"], ⟨⟨0, 0⟩, ⟨1970, 1, 1, 0, 0⟩, 3⟩)], []⟩
        [] [["q"]] (fun _ => true) (fun _ => .error (.io ["q"]))
        (fun _ => .error (.io ["q"]))
      = (⟨[(["d"], ⟨⟨0, 0⟩, ⟨1970, 1, 1, 0, 0⟩, 3⟩)], []⟩, [],
          some .indexEntryMissing) :=
  ⟨⟨["q"], by decide, by decide⟩,
    (claim_C4_mirror_index_entry_missing .Real
      ⟨[(["d"], ⟨⟨0, 0⟩, ⟨1970, 1, 1, 0, 0⟩, 3⟩)], []⟩ [] [["q"]]
      (fun _ => true) (fun _ => .error (.io ["q"]))
      (fun _ => .error (.io ["q"])) (by decide)).2
      ⟨["q"], by decide, by decide⟩⟩

/-! ### C10, C1, C3: the quota partition -/

theorem keyLe_total (k l : Nat × ℚ) : keyLe k l ∨ keyLe l k := by
  unfold keyLe
  rcases lt_trichotomy k.1 l.1 with h | h | h
  · exact Or.inl (Or.inl h)
  · rcases le_total k.2 l.2 with h2 | h2
    · exact Or.inl (Or.inr ⟨h, h2⟩)
    · exact Or.inr (Or.inr ⟨h.symm, h2⟩)
  · exact Or.inr (Or.inl h)

theorem keyLe_trans {a b c : Nat × ℚ} (h : keyLe a b) (g : keyLe b c) :
    keyLe a c := by
  unfold keyLe at *
  rcases h with h | ⟨h1, h2⟩
  · rcases g with g | ⟨g1, g2⟩
    · exact Or.inl (h.trans g)
    · exact Or.inl (by rw [← g1]; exact h)
  · rcases g with g | ⟨g1, g2⟩
    · exact Or.inl (by rw [h1]; exact g)
    · exact Or.inr ⟨h1.trans g1, h2.trans g2⟩

instance (q : FileQuery) : IsTotal (RelPath × FileInfo) (entryLe q) :=
  ⟨fun a b => keyLe_total _ _⟩

instance (q : FileQuery) : IsTrans (RelPath × FileInfo) (entryLe q) :=
  ⟨fun _ _ _ h g => keyLe_trans h g⟩

theorem sorted_media_perm (es : Entries) (q : FileQuery) :
    (sorted_media_entries es q).Perm (media_files es) :=
  List.perm_insertionSort _ _

theorem sorted_media_sorted (es : Entries) (q : FileQuery) :
    List.Sorted (entryLe q) (sorted_media_entries es q) :=
  List.sorted_insertionSort _ _

theorem nodup_media_keys {es : Entries}
    (hn : (es.map (fun e => e.1)).Nodup) :
    ((media_files es).map (fun e => e.1)).Nodup :=
  hn.sublist ((List.filter_sublist es).map _)

/-- C10: for every index with unique keys and every query — any scoring
function, any limit (including `Infinite`), any priority predicate — the
delete and retain lists together are a permutation of the media paths of
the index (so each media path occurs exactly once across the two lists),
they are disjoint, and no non-media path appears in either. -/
theorem claim_C10_partition_invariant (es : Entries) (q : FileQuery)
    (hn : (es.map (fun e => e.1)).Nodup) :
    ((get_delete_retain_candidates es q).1
        ++ (get_delete_retain_candidates es q).2).Perm
      ((media_files es).map (fun e => e.1))
    ∧ ((get_delete_retain_candidates es q).1
        ++ (get_delete_retain_candidates es q).2).Nodup
    ∧ (get_delete_retain_candidates es q).1.Disjoint
        (get_delete_retain_candidates es q).2
    ∧ (∀ p, p ∈ (get_delete_retain_candidates es q).1
          ++ (get_delete_retain_candidates es q).2 → is_media_file p = true) := by
  have hperm : ((get_delete_retain_candidates es q).1
      ++ (get_delete_retain_candidates es q).2).Perm
      ((media_files es).map (fun e => e.1)) := by
    have hsp := (sorted_media_perm es q).map (fun e => e.1)
    unfold get_delete_retain_candidates
    rcases q.data_limit with _ | L
    · simpa using hsp
    · simp only
      rw [← List.map_append, List.take_append_drop]
      exact hsp
  have hnodup : ((get_delete_retain_candidates es q).1
      ++ (get_delete_retain_candidates es q).2).Nodup :=
    hperm.nodup_iff.mpr (nodup_media_keys hn)
  refine ⟨hperm, hnodup, ?_, ?_⟩
  · exact (List.nodup_append.mp hnodup).2.2
  · intro p hp
    have hp2 := hperm.subset hp
    obtain ⟨e, he, hfst⟩ := List.mem_map.mp hp2
    obtain ⟨_, hmed⟩ := List.mem_filter.mp he
    rw [← hfst]
    exact hmed

/-- Witness for C10 at a concrete input. -/
theorem claim_C10_partition_invariant_witness :
    ((get_delete_retain_candidates
        [(["Media", "a"], ⟨⟨0, 0⟩, ⟨1970, 1, 1, 0, 0⟩, 7⟩)]
        ⟨fun _ => 0, .Bytes 0, fun _ => false⟩).1
      ++ (get_delete_retain_candidates
        [(["Media", "a"], ⟨⟨0, 0⟩, ⟨1970, 1, 1, 0, 0⟩, 7⟩)]
        ⟨fun _ => 0, .Bytes 0, fun _ => false⟩).2).Perm
      ((media_files
        [(["Media", "a"], ⟨⟨0, 0⟩, ⟨1970, 1, 1, 0, 0⟩, 7⟩)]).map
        (fun e => e.1)) :=
  (claim_C10_partition_invariant
    [(["Media", "a"], ⟨⟨0, 0⟩, ⟨1970, 1, 1, 0, 0⟩, 7⟩)]
    ⟨fun _ => 0, .Bytes 0, fun _ => false⟩ (by decide)).1

/-- The loop of `get_delete_retain_candidates` computes the declarative
truncation index: starting at index `idx` with running total `total` and
last-assigned counter `cnt`. -/
theorem walk_count_eq_find (limit : Nat) (l : List (RelPath × FileInfo)) :
    ∀ (idx total cnt : Nat),
    walk_count limit idx total cnt l =
      match (List.range l.length).find?
          (fun k => total - ((l.take k).map (fun e => e.2.size)).sum ≤ limit)
        with
      | some k => idx + k
      | none => if l.isEmpty then cnt else idx + (l.length - 1) := by
  induction l with
  | nil => intro idx total cnt; simp [walk_count]
  | cons e rest ih =>
    intro idx total cnt
    obtain ⟨p, fi⟩ := e
    rw [List.length_cons, List.range_succ_eq_map]
    rw [List.find?_cons]
    by_cases h0 : total ≤ limit
    · simp only [List.take_zero, List.map_nil, List.sum_nil, Nat.sub_zero,
        decide_eq_true h0]
      simp [walk_count, h0]
    · simp only [List.take_zero, List.map_nil, List.sum_nil, Nat.sub_zero,
        decide_eq_false h0]
      rw [List.find?_map]
      simp only [Function.comp_def, Nat.succ_eq_add_one, List.take_succ_cons,
        List.map_cons, List.sum_cons, Nat.sub_add_eq]
      have hwc : walk_count limit idx total cnt ((p, fi) :: rest)
          = walk_count limit (idx + 1) (total - fi.size) idx rest := by
        simp [walk_count, h0]
      rw [hwc, ih (idx + 1) (total - fi.size) idx]
      rcases hfind : List.find?
          (fun k => decide (total - fi.size
            - (List.map (fun e => e.2.size) (List.take k rest)).sum ≤ limit))
          (List.range rest.length) with _ | k
      · simp only [Option.map_none']
        cases rest with
        | nil =>
          show idx = idx + (0 + 1 - 1)
          omega
        | cons e2 rest2 =>
          show idx + 1 + ((e2 :: rest2).length - 1)
            = idx + ((e2 :: rest2).length + 1 - 1)
          simp only [List.length_cons]
          omega
      · simp only [Option.map_some']
        show idx + 1 + k = idx + (k + 1)
        omega

/-- C1 (amended): with a byte limit `L`, the partition sorts the media
entries ascending by `(priority_class, score)`, starts from the total
media size, and walks the sorted list **from the head** (the first
entries of the ascending sort), subtracting each walked entry's size from
the running total; the delete list is the prefix strictly before the
first index at which the running total has dropped to `≤ L` (all Nat
subtraction saturating), and if no such index exists among the list's
indices, all entries but the last; the retain list is the remainder. -/
theorem claim_C1_quota_partition (es : Entries) (q : FileQuery) (L : Nat)
    (hq : q.data_limit = .Bytes L) :
    get_delete_retain_candidates es q
      = (((sorted_media_entries es q).take
            (stop_index L (media_size_bytes es) (sorted_media_entries es q))).map
            (fun e => e.1),
          ((sorted_media_entries es q).drop
            (stop_index L (media_size_bytes es) (sorted_media_entries es q))).map
            (fun e => e.1)) := by
  unfold get_delete_retain_candidates
  rw [hq]
  simp only
  have hw := walk_count_eq_find L (sorted_media_entries es q) 0
    (media_size_bytes es) 0
  rw [hw]
  unfold stop_index
  rcases hfind : (List.range (sorted_media_entries es q).length).find?
      (fun k => media_size_bytes es
        - (((sorted_media_entries es q).take k).map (fun e => e.2.size)).sum
        ≤ L) with _ | k
  · cases hemp : (sorted_media_entries es q).isEmpty
    · simp
    · have hnil : sorted_media_entries es q = [] := by
        cases h2 : sorted_media_entries es q with
        | nil => rfl
        | cons a l =>
          rw [h2] at hemp
          simp at hemp
      rw [hnil]
      simp
  · simp only [Nat.zero_add]

/-- Witness for C1 at a concrete input. -/
theorem claim_C1_quota_partition_witness :
    get_delete_retain_candidates
        [(["Media", "a"], ⟨⟨0, 0⟩, ⟨1970, 1, 1, 0, 0⟩, 7⟩)]
        ⟨fun _ => 0, .Bytes 3, fun _ => false⟩
      = (((sorted_media_entries
            [(["Media", "a"], ⟨⟨0, 0⟩, ⟨1970, 1, 1, 0, 0⟩, 7⟩)]
            ⟨fun _ => 0, .Bytes 3, fun _ => false⟩).take
            (stop_index 3
              (media_size_bytes
                [(["Media", "a"], ⟨⟨0, 0⟩, ⟨1970, 1, 1, 0, 0⟩, 7⟩)])
              (sorted_media_entries
                [(["Media", "a"], ⟨⟨0, 0⟩, ⟨1970, 1, 1, 0, 0⟩, 7⟩)]
                ⟨fun _ => 0, .Bytes 3, fun _ => false⟩))).map (fun e => e.1),
          ((sorted_media_entries
            [(["Media", "a"], ⟨⟨0, 0⟩, ⟨1970, 1, 1, 0, 0⟩, 7⟩)]
            ⟨fun _ => 0, .Bytes 3, fun _ => false⟩).drop
            (stop_index 3
              (media_size_bytes
                [(["Media", "a"], ⟨⟨0, 0⟩, ⟨1970, 1, 1, 0, 0⟩, 7⟩)])
              (sorted_media_entries
                [(["Media", "a"], ⟨⟨0, 0⟩, ⟨1970, 1, 1, 0, 0⟩, 7⟩)]
                ⟨fun _ => 0, .Bytes 3, fun _ => false⟩))).map (fun e => e.1)) :=
  claim_C1_quota_partition
    [(["Media", "a"], ⟨⟨0, 0⟩, ⟨1970, 1, 1, 0, 0⟩, 7⟩)]
    ⟨fun _ => 0, .Bytes 3, fun _ => false⟩ 3 rfl

/-- Counterexample to C1 as stated: on the spec's own example — media set
`{A: 100 bytes score 1, B: 200 bytes score 2, C: 50 bytes score 3}`,
limit 180 — the code deletes `{A, B}` (walking from the head of the
ascending sort) and retains `{C}`, not delete `{C, B}` / retain `{A}` as
the claim states. -/
theorem claim_C1_quota_partition_counterexample :
    get_delete_retain_candidates
        [(["Media", "A"], ⟨⟨0, 0⟩, ⟨1970, 1, 1, 0, 0⟩, 100⟩),
          (["Media", "B"], ⟨⟨0, 0⟩, ⟨1970, 1, 1, 0, 0⟩, 200⟩),
          (["Media", "C"], ⟨⟨0, 0⟩, ⟨1970, 1, 1, 0, 0⟩, 50⟩)]
        ⟨fun fi => if fi.size = 100 then 1 else if fi.size = 200 then 2 else 3,
          .Bytes 180, fun _ => false⟩
      = ([["Media", "A"], ["Media", "B"]], [["Media", "C"]])
    ∧ get_delete_retain_candidates
        [(["Media", "A"], ⟨⟨0, 0⟩, ⟨1970, 1, 1, 0, 0⟩, 100⟩),
          (["Media", "B"], ⟨⟨0, 0⟩, ⟨1970, 1, 1, 0, 0⟩, 200⟩),
          (["Media", "C"], ⟨⟨0, 0⟩, ⟨1970, 1, 1, 0, 0⟩, 50⟩)]
        ⟨fun fi => if fi.size = 100 then 1 else if fi.size = 200 then 2 else 3,
          .Bytes 180, fun _ => false⟩
      ≠ ([["Media", "C"], ["Media", "B"]], [["Media", "A"]]) := by
  constructor
  · decide
  · decide

theorem value_unique {es : Entries} {p : RelPath} {v w : FileInfo}
    (hn : (es.map (fun e => e.1)).Nodup) (h1 : (p, v) ∈ es)
    (h2 : (p, w) ∈ es) : v = w := by
  have s1 := mem_lookupE hn h1
  have s2 := mem_lookupE hn h2
  rw [s1] at s2
  exact (Option.some.injEq _ _).mp s2

/-- C3 (amended): a media file matched by the priority predicate gets
priority class 1 and therefore sorts *after* every non-matching (class 0)
media file in the ascending composite order — not ahead of it — and since
the delete list is a prefix of that order it is retained in preference:
for every query with a byte limit, if a protected file appears in the
delete list then every unprotected media file does too, even when the raw
score of the protected file is better. -/
theorem claim_C3_priority_retained (es : Entries) (q : FileQuery) (L : Nat)
    (hq : q.data_limit = .Bytes L)
    (hn : (es.map (fun e => e.1)).Nodup)
    (p u : RelPath) (fp fu : FileInfo)
    (hpmem : (p, fp) ∈ es) (hpprot : q.priority fp = true)
    (humem : (u, fu) ∈ es) (humedia : is_media_file u = true)
    (huprot : q.priority fu = false)
    (hpdel : p ∈ (get_delete_retain_candidates es q).1) :
    u ∈ (get_delete_retain_candidates es q).1 := by
  unfold get_delete_retain_candidates at hpdel ⊢
  rw [hq] at hpdel ⊢
  simp only at hpdel ⊢
  obtain ⟨ep, hep, hfst⟩ := List.mem_map.mp hpdel
  have hepsorted : ep ∈ sorted_media_entries es q :=
    (List.take_sublist _ _).subset hep
  have hepes : ep ∈ es :=
    (List.filter_sublist es).subset ((sorted_media_perm es q).subset hepsorted)
  have hepes2 : (p, ep.2) ∈ es := by
    rw [← hfst]
    exact hepes
  have hval : ep.2 = fp := value_unique hn hepes2 hpmem
  have humedia2 : (u, fu) ∈ media_files es :=
    List.mem_filter.mpr ⟨humem, humedia⟩
  have husorted : (u, fu) ∈ sorted_media_entries es q :=
    ((sorted_media_perm es q).mem_iff).mpr humedia2
  by_cases hu : (u, fu) ∈ (sorted_media_entries es q).take
      (walk_count L 0 (media_size_bytes es) 0 (sorted_media_entries es q))
  · exact List.mem_map.mpr ⟨(u, fu), hu, rfl⟩
  · exfalso
    have hudrop : (u, fu) ∈ (sorted_media_entries es q).drop
        (walk_count L 0 (media_size_bytes es) 0 (sorted_media_entries es q)) := by
      have hsplit := List.take_append_drop
        (walk_count L 0 (media_size_bytes es) 0 (sorted_media_entries es q))
        (sorted_media_entries es q)
      rw [← hsplit] at husorted
      rcases List.mem_append.mp husorted with h | h
      · exact absurd h hu
      · exact h
    have hrel := (sorted_media_sorted es q).rel_of_mem_take_of_mem_drop hep
      hudrop
    unfold entryLe keyLe at hrel
    simp [calculate_priority, hval, hpprot, huprot] at hrel

/-- Witness for C3 at a concrete input where a protected file really does
land in the delete list. -/
theorem claim_C3_priority_retained_witness :
    (["Media", "u"] : RelPath) ∈ (get_delete_retain_candidates
      [(["Media", "u"], ⟨⟨0, 0⟩, ⟨1970, 1, 1, 0, 0⟩, 10⟩),
        (["Media", "p1"], ⟨⟨0, 0⟩, ⟨1970, 1, 1, 0, 0⟩, 20⟩),
        (["Media", "p2"], ⟨⟨0, 0⟩, ⟨1970, 1, 1, 0, 0⟩, 30⟩)]
      ⟨fun _ => 0, .Bytes 25, fun fi => decide (20 ≤ fi.size)⟩).1 :=
  claim_C3_priority_retained
    [(["Media", "u"], ⟨⟨0, 0⟩, ⟨1970, 1, 1, 0, 0⟩, 10⟩),
      (["Media", "p1"], ⟨⟨0, 0⟩, ⟨1970, 1, 1, 0, 0⟩, 20⟩),
      (["Media", "p2"], ⟨⟨0, 0⟩, ⟨1970, 1, 1, 0, 0⟩, 30⟩)]
    ⟨fun _ => 0, .Bytes 25, fun fi => decide (20 ≤ fi.size)⟩ 25 rfl
    (by decide) ["Media", "p1"] ["Media", "u"]
    ⟨⟨0, 0⟩, ⟨1970, 1, 1, 0, 0⟩, 20⟩ ⟨⟨0, 0⟩, ⟨1970, 1, 1, 0, 0⟩, 10⟩
    (by decide) (by decide) (by decide) (by decide) (by decide) (by decide)

/-- Counterexample to C3 as stated: a protected (predicate-matching)
media file sorts *after* a non-matching one in the composite order, even
when its raw score is strictly better — it does not sort ahead. -/
theorem claim_C3_priority_retained_counterexample :
    sorted_media_entries
        [(["Media", "p"], ⟨⟨0, 0⟩, ⟨1970, 1, 1, 0, 0⟩, 1⟩),
          (["Media", "q"], ⟨⟨0, 0⟩, ⟨1970, 1, 1, 0, 0⟩, 9⟩)]
        ⟨fun fi => (fi.size : ℚ), .Bytes 0, fun fi => decide (fi.size ≤ 5)⟩
      = [(["Media", "q"], ⟨⟨0, 0⟩, ⟨1970, 1, 1, 0, 0⟩, 9⟩),
          (["Media", "p"], ⟨⟨0, 0⟩, ⟨1970, 1, 1, 0, 0⟩, 1⟩)]
    ∧ (fun fi => decide (fi.size ≤ 5)) (⟨⟨0, 0⟩, ⟨1970, 1, 1, 0, 0⟩, 1⟩ : FileInfo)
        = true
    ∧ (fun fi => decide (fi.size ≤ 5)) (⟨⟨0, 0⟩, ⟨1970, 1, 1, 0, 0⟩, 9⟩ : FileInfo)
        = false
    ∧ ((⟨⟨0, 0⟩, ⟨1970, 1, 1, 0, 0⟩, 1⟩ : FileInfo).size : ℚ)
        < ((⟨⟨0, 0⟩, ⟨1970, 1, 1, 0, 0⟩, 9⟩ : FileInfo).size : ℚ)
    ∧ sorted_media_entries
        [(["Media", "p"], ⟨⟨0, 0⟩, ⟨1970, 1, 1, 0, 0⟩, 1⟩),
          (["Media", "q"], ⟨⟨0, 0⟩, ⟨1970, 1, 1, 0, 0⟩, 9⟩)]
        ⟨fun fi => (fi.size : ℚ), .Bytes 0, fun fi => decide (fi.size ≤ 5)⟩
      ≠ [(["Media", "p"], ⟨⟨0, 0⟩, ⟨1970, 1, 1, 0, 0⟩, 1⟩),
          (["Media", "q"], ⟨⟨0, 0⟩, ⟨1970, 1, 1, 0, 0⟩, 9⟩)] := by
  refine ⟨by decide, by decide, by decide, by decide, by decide⟩

/-! ### C2: dated-snapshot pruning is dead code -/

/-- C2 (code evaluation at the failing input): with retention count 1,
dated snapshots of two distinct dates and a current database present,
`clean_old_dbs` deletes nothing and succeeds.  The date group of
`clean_previous_dbs`'s pattern is written `(<?P<date>...)` — a plain
group matching an optional `<` then the literal text `P<date>` — so no
real snapshot name ever matches and the dated prune never deletes;
`clean_current_db` leaves the dated files (they do not match
`msgstore(...)?\.db\.`) and keeps the only current database. -/
theorem claim_C2_clean_old_dbs_noop :
    clean_old_dbs 1 .Real true
      ⟨[(["Databases", "msgstore-2023-06-14.db.crypt14"],
          ⟨⟨0, 0⟩, ⟨1970, 1, 1, 0, 0⟩, 5⟩),
        (["Databases", "msgstore-2023-06-15.db.crypt14"],
          ⟨⟨0, 0⟩, ⟨1970, 1, 1, 0, 0⟩, 5⟩),
        (["Databases", "msgstore.db.crypt15"],
          ⟨⟨0, 0⟩, ⟨1970, 1, 1, 0, 0⟩, 5⟩)],
        [(["Databases", "msgstore-2023-06-14.db.crypt14"],
          ⟨⟨0, 0⟩, ⟨1970, 1, 1, 0, 0⟩, 5⟩),
        (["Databases", "msgstore-2023-06-15.db.crypt14"],
          ⟨⟨0, 0⟩, ⟨1970, 1, 1, 0, 0⟩, 5⟩),
        (["Databases", "msgstore.db.crypt15"],
          ⟨⟨0, 0⟩, ⟨1970, 1, 1, 0, 0⟩, 5⟩)]⟩
      = (⟨[(["Databases", "msgstore-2023-06-14.db.crypt14"],
          ⟨⟨0, 0⟩, ⟨1970, 1, 1, 0, 0⟩, 5⟩),
        (["Databases", "msgstore-2023-06-15.db.crypt14"],
          ⟨⟨0, 0⟩, ⟨1970, 1, 1, 0, 0⟩, 5⟩),
        (["Databases", "msgstore.db.crypt15"],
          ⟨⟨0, 0⟩, ⟨1970, 1, 1, 0, 0⟩, 5⟩)],
        [(["Databases", "msgstore-2023-06-14.db.crypt14"],
          ⟨⟨0, 0⟩, ⟨1970, 1, 1, 0, 0⟩, 5⟩),
        (["Databases", "msgstore-2023-06-15.db.crypt14"],
          ⟨⟨0, 0⟩, ⟨1970, 1, 1, 0, 0⟩, 5⟩),
        (["Databases", "msgstore.db.crypt15"],
          ⟨⟨0, 0⟩, ⟨1970, 1, 1, 0, 0⟩, 5⟩)]⟩, none) := by
  decide

/-! ### C8: index construction -/

theorem getPath_cons_of_ne_nil {es : FsEntries} {n : String}
    {rest : RelPath} (h : rest ≠ []) :
    getPath es (n :: rest)
      = (match findEntry es n with
          | some (.dir es1) => getPath es1 rest
          | _ => none) := by
  cases rest with
  | nil => exact absurd rfl h
  | cons r rs =>
    simp only [getPath]
    cases findEntry es n with
    | none => rfl
    | some t => cases t <;> rfl

theorem walkEntries_mem :
    ∀ (p : RelPath) (es : FsEntries) (pre : RelPath) (n : String)
      (mtime : FileTime) (size : Nat),
    getPath es (p ++ [n]) = some (.file mtime size) →
    (∀ c ∈ p ++ [n], c ≠ ".waa") →
    (pre ++ (p ++ [n]), FileInfo.new n mtime size) ∈ (walkEntries pre es).1
  | [], .nil, pre, n, mt, sz => by
    intro hf hw
    simp [getPath, findEntry] at hf
  | [], .cons m t rest, pre, n, mt, sz => by
    intro hf hw
    simp only [List.nil_append] at hf hw ⊢
    by_cases hm : m = n
    · have ht : t = .file mt sz := by
        simp only [getPath, findEntry, hm, if_true] at hf
        exact (Option.some.injEq _ _).mp hf
      have hnwaa : n ≠ ".waa" := hw n (List.mem_singleton.mpr rfl)
      have hmwaa : ¬ (m = ".waa") := by rw [hm]; exact hnwaa
      simp only [walkEntries, hmwaa, if_false]
      apply List.mem_append.mpr
      left
      rw [ht, hm]
      simp [walkTree]
    · rcases hfe : findEntry rest n with _ | t2
      · exfalso
        simp only [getPath, findEntry, hm, if_false, hfe] at hf
        exact Option.noConfusion hf
      · have ht2 : t2 = .file mt sz := by
          simp only [getPath, findEntry, hm, if_false, hfe] at hf
          exact (Option.some.injEq _ _).mp hf
        have hf2 : getPath rest [n] = some (.file mt sz) := by
          simp [getPath, hfe, ht2]
        have hmem := walkEntries_mem [] rest pre n mt sz hf2 hw
        simp only [List.nil_append] at hmem
        by_cases hmw : m = ".waa"
        · simpa [walkEntries, hmw] using hmem
        · simp only [walkEntries, hmw, if_false]
          exact List.mem_append.mpr (Or.inr hmem)
  | m :: p2, .nil, pre, n, mt, sz => by
    intro hf hw
    rw [List.cons_append, getPath_cons_of_ne_nil (by simp)] at hf
    simp [findEntry] at hf
  | m :: p2, .cons m2 t rest, pre, n, mt, sz => by
    intro hf hw
    rw [List.cons_append] at hf hw ⊢
    rw [getPath_cons_of_ne_nil (by simp)] at hf
    by_cases hm : m2 = m
    · have hfe : findEntry (FsEntries.cons m2 t rest) m = some t := by
        simp [findEntry, hm]
      rw [hfe] at hf
      cases t with
      | file mt2 sz2 => simp at hf
      | other => simp at hf
      | dir es1 =>
        simp only at hf
        have hw2 : ∀ c ∈ p2 ++ [n], c ≠ ".waa" := fun c hc =>
          hw c (List.mem_cons_of_mem _ hc)
        have hmem := walkEntries_mem p2 es1 (pre ++ [m2]) n mt sz hf hw2
        have hm2waa : ¬ (m2 = ".waa") := by
          rw [hm]
          exact hw m (List.mem_cons_self _ _)
        simp only [walkEntries, hm2waa, if_false]
        apply List.mem_append.mpr
        left
        have hpath : pre ++ (m :: (p2 ++ [n])) = (pre ++ [m2]) ++ (p2 ++ [n]) := by
          rw [hm]
          simp
        rw [hpath]
        exact hmem
    · have hfe : findEntry (FsEntries.cons m2 t rest) m = findEntry rest m := by
        simp [findEntry, hm]
      rw [hfe] at hf
      have hf2 : getPath rest (m :: (p2 ++ [n])) = some (.file mt sz) := by
        rw [getPath_cons_of_ne_nil (by simp)]
        exact hf
      have hmem := walkEntries_mem (m :: p2) rest pre n mt sz
        (by rw [List.cons_append]; exact hf2) (by rw [List.cons_append]; exact hw)
      rw [List.cons_append] at hmem
      by_cases hmw : m2 = ".waa"
      · simpa [walkEntries, hmw] using hmem
      · simp only [walkEntries, hmw, if_false]
        exact List.mem_append.mpr (Or.inr hmem)
termination_by p es => (p.length, sizeOf es)

mutual
theorem walkTree_warnings :
    ∀ (t : FsTree) (pre : RelPath) (name : String),
    (walkTree pre name t).2 = countOthersT t
  | .file _ _, _, _ => rfl
  | .dir es, pre, name => walkEntries_warnings es (pre ++ [name])
  | .other, _, _ => rfl
theorem walkEntries_warnings :
    ∀ (es : FsEntries) (pre : RelPath),
    (walkEntries pre es).2 = countOthersE es
  | .nil, _ => rfl
  | .cons name t rest, pre => by
    by_cases h : name = ".waa"
    · simp [walkEntries, countOthersE, h, walkEntries_warnings rest pre]
    · simp [walkEntries, countOthersE, h, walkTree_warnings t pre name,
        walkEntries_warnings rest pre]
end

/-- C8 (amended): the walk collects one record per regular file, but the
marker-name skip applies at *every* depth, not only at the root: every
regular file none of whose path components is `.waa` gets a `FileRecord`
under its relative path (built by `FileInfo::new` from its name, mtime
and size), entries named `.waa` are skipped wherever they appear
(directories of that name are pruned with their whole subtree), and
non-file/non-directory entries only produce a warning — the walk itself
always completes, emitting exactly one warning per such entry. -/
theorem claim_C8_rebuild_index_walk :
    (∀ (root : FsEntries) (p : RelPath) (n : String) (mtime : FileTime)
        (size : Nat),
      getPath root (p ++ [n]) = some (.file mtime size) →
      (∀ c ∈ p ++ [n], c ≠ ".waa") →
      (p ++ [n], FileInfo.new n mtime size) ∈ (rebuild_index root).1)
    ∧ (∀ root : FsEntries, (rebuild_index root).2 = countOthersE root) := by
  constructor
  · intro root p n mtime size hf hw
    have := walkEntries_mem p root [] n mtime size hf hw
    simpa [rebuild_index] using this
  · intro root
    exact walkEntries_warnings root []

/-- Witness for C8 at a concrete input. -/
theorem claim_C8_rebuild_index_walk_witness :
    ((["a.txt"] : RelPath), FileInfo.new "a.txt" ⟨0, 0⟩ 5)
      ∈ (rebuild_index (.cons "a.txt" (.file ⟨0, 0⟩ 5) .nil)).1 :=
  claim_C8_rebuild_index_walk.1 (.cons "a.txt" (.file ⟨0, 0⟩ 5) .nil) []
    "a.txt" ⟨0, 0⟩ 5 (by decide) (by decide)

/-- Counterexample to C8 as stated: a regular file `d/.waa` — not the
root-level marker — is skipped by the walk, so the built map misses it
(here the map comes out empty). -/
theorem claim_C8_rebuild_index_walk_counterexample :
    getPath
        (.cons "d" (.dir (.cons ".waa" (.file ⟨0, 0⟩ 7) .nil)) .nil)
        ["d", ".waa"]
      = some (.file ⟨0, 0⟩ 7)
    ∧ (rebuild_index
        (.cons "d" (.dir (.cons ".waa" (.file ⟨0, 0⟩ 7) .nil)) .nil)).1
      = [] :=
  ⟨rfl, rfl⟩

/-! ### C9: filename-based creation-date inference -/

theorem getLast?_eq_of_max :
    ∀ {l : List Nat}, l.Pairwise (· < ·) → ∀ {p : Nat}, p ∈ l →
    (∀ q ∈ l, q ≤ p) → l.getLast? = some p := by
  intro l
  induction l with
  | nil => intro _ p hp; cases hp
  | cons a rest ih =>
    intro hsort p hp hmax
    cases rest with
    | nil =>
      have hpa : p = a := List.mem_singleton.mp hp
      rw [hpa]
      rfl
    | cons b rest2 =>
      rw [List.getLast?_cons_cons]
      have hab : a < b :=
        (List.pairwise_cons.mp hsort).1 b (List.mem_cons_self _ _)
      have hpmem : p ∈ b :: rest2 := by
        rcases List.mem_cons.mp hp with h | h
        · exfalso
          have hb : b ≤ p :=
            hmax b (List.mem_cons_of_mem _ (List.mem_cons_self _ _))
          omega
        · exact h
      exact ih hsort.of_cons hpmem
        (fun q hq => hmax q (List.mem_cons_of_mem _ hq))

theorem capturePos_eq (cs : List Char) (P : Nat) (hP : matchAt cs P = true)
    (hmax : ∀ q < cs.length + 1, P < q → matchAt cs q = false) :
    capturePos cs = some P := by
  have hPlen : P < cs.length + 1 := by
    have h17 : decide ((cs.drop P).drop 17 ≠ []) = true := by
      simp only [matchAt, Bool.and_eq_true] at hP
      exact hP.1.2
    have h17' : (cs.drop P).drop 17 ≠ [] := of_decide_eq_true h17
    rw [List.drop_drop] at h17'
    by_contra hc
    push_neg at hc
    exact h17' (List.drop_eq_nil_iff.mpr (by omega))
  unfold capturePos
  apply getLast?_eq_of_max
  · exact (List.pairwise_lt_range _).filter _
  · exact List.mem_filter.mpr ⟨List.mem_range.mpr hPlen, hP⟩
  · intro q hq
    obtain ⟨hqr, hqm⟩ := List.mem_filter.mp hq
    by_contra hgt
    push_neg at hgt
    rw [hmax q (List.mem_range.mp hqr) hgt] at hqm
    cases hqm

theorem matchAt_decomp (a d8 d4 ext : List Char)
    (ha : a.all (fun c => c ≠ '\n') = true)
    (h8 : d8.length = 8) (h8d : d8.all Char.isDigit = true)
    (h4 : d4.length = 4) (h4d : d4.all Char.isDigit = true)
    (hext : ext ≠ []) (hextn : ext.all (fun c => c ≠ '\n') = true) :
    matchAt (a ++ '-' :: (d8 ++ '-' :: 'W' :: 'A' :: (d4 ++ '.' :: ext)))
      a.length = true := by
  have e1 : (a ++ '-' :: (d8 ++ '-' :: 'W' :: 'A' :: (d4 ++ '.' :: ext))).take
      a.length = a := List.take_left _ _
  have e2 : (a ++ '-' :: (d8 ++ '-' :: 'W' :: 'A' :: (d4 ++ '.' :: ext))).drop
      a.length = '-' :: (d8 ++ '-' :: 'W' :: 'A' :: (d4 ++ '.' :: ext)) :=
    List.drop_left _ _
  have hd8' : (d8 ++ '-' :: 'W' :: 'A' :: (d4 ++ '.' :: ext)).drop 8
      = '-' :: 'W' :: 'A' :: (d4 ++ '.' :: ext) := List.drop_left' h8
  have h11 : (d8 ++ '-' :: 'W' :: 'A' :: (d4 ++ '.' :: ext)).drop 11
      = d4 ++ '.' :: ext := by
    rw [show (11 : Nat) = 8 + 3 from rfl, ← List.drop_drop, hd8']
    rfl
  have h15 : (d8 ++ '-' :: 'W' :: 'A' :: (d4 ++ '.' :: ext)).drop 15
      = (d4 ++ '.' :: ext).drop 4 := by
    rw [show (15 : Nat) = 8 + 7 from rfl, ← List.drop_drop, hd8']
    rfl
  have h16 : (d8 ++ '-' :: 'W' :: 'A' :: (d4 ++ '.' :: ext)).drop 16
      = (d4 ++ '.' :: ext).drop 5 := by
    rw [show (16 : Nat) = 8 + 8 from rfl, ← List.drop_drop, hd8']
    rfl
  have hdot : (d4 ++ '.' :: ext).drop 4 = '.' :: ext := List.drop_left' h4
  have hext5 : (d4 ++ '.' :: ext).drop 5 = ext := by
    rw [show (5 : Nat) = 4 + 1 from rfl, ← List.drop_drop, hdot]
    rfl
  unfold matchAt
  rw [e1, e2]
  rw [show ('-' :: (d8 ++ '-' :: 'W' :: 'A' :: (d4 ++ '.' :: ext))).drop 1
      = d8 ++ '-' :: 'W' :: 'A' :: (d4 ++ '.' :: ext) from rfl]
  rw [show ('-' :: (d8 ++ '-' :: 'W' :: 'A' :: (d4 ++ '.' :: ext))).drop 9
      = (d8 ++ '-' :: 'W' :: 'A' :: (d4 ++ '.' :: ext)).drop 8 from rfl]
  rw [show ('-' :: (d8 ++ '-' :: 'W' :: 'A' :: (d4 ++ '.' :: ext))).drop 12
      = (d8 ++ '-' :: 'W' :: 'A' :: (d4 ++ '.' :: ext)).drop 11 from rfl]
  rw [show ('-' :: (d8 ++ '-' :: 'W' :: 'A' :: (d4 ++ '.' :: ext))).drop 16
      = (d8 ++ '-' :: 'W' :: 'A' :: (d4 ++ '.' :: ext)).drop 15 from rfl]
  rw [show ('-' :: (d8 ++ '-' :: 'W' :: 'A' :: (d4 ++ '.' :: ext))).drop 17
      = (d8 ++ '-' :: 'W' :: 'A' :: (d4 ++ '.' :: ext)).drop 16 from rfl]
  rw [hd8', h11, h15, h16, hdot, hext5]
  rw [List.take_left' h8, List.take_left' h4]
  simp only [List.all_eq_true, decide_eq_true_eq] at ha hextn
  simp [h8d, h8, h4d, h4, hext]
  exact ⟨ha, hextn⟩

/-- C9: for every filename of the vendor form
`<stem>-YYYYMMDD-WAnnnn.<ext>` whose date block is the rightmost match of
the pattern (and carries a valid date), `FileInfo::new` estimates the
creation date as the embedded date at midnight — for *every* modification
time, i.e. regardless of the file's actual mtime; for every filename on
which the pattern finds no date, the estimated creation date is the
modification time (converted to a civil timestamp).  The concrete example
`IMG-20230615-WA0007.jpg` yields 2023-06-15 00:00:00. -/
theorem claim_C9_creation_date_from_name :
    (∀ (a d8 d4 ext : List Char) (mtime : FileTime) (size : Nat),
      a.all (fun c => c ≠ '\n') = true →
      d8.length = 8 → d8.all Char.isDigit = true →
      d4.length = 4 → d4.all Char.isDigit = true →
      ext ≠ [] → ext.all (fun c => c ≠ '\n') = true →
      (∀ q < (a ++ '-' :: (d8 ++ '-' :: 'W' :: 'A' :: (d4 ++ '.' :: ext))).length + 1,
        a.length < q →
        matchAt (a ++ '-' :: (d8 ++ '-' :: 'W' :: 'A' :: (d4 ++ '.' :: ext))) q
          = false) →
      validDate (digitsToNat (d8.take 4)) (digitsToNat ((d8.drop 4).take 2))
        (digitsToNat (d8.drop 6)) = true →
      (FileInfo.new ⟨a ++ '-' :: (d8 ++ '-' :: 'W' :: 'A' :: (d4 ++ '.' :: ext))⟩
          mtime size).estimated_creation_date
        = ⟨digitsToNat (d8.take 4), digitsToNat ((d8.drop 4).take 2),
            digitsToNat (d8.drop 6), 0, 0⟩)
    ∧ (∀ (s : String) (mtime : FileTime) (size : Nat),
        creation_date_from_name s = none →
        (FileInfo.new s mtime size).estimated_creation_date
          = timestampToNaiveDateTime mtime)
    ∧ creation_date_from_name "IMG-20230615-WA0007.jpg"
        = some ⟨2023, 6, 15, 0, 0⟩
    ∧ (∀ (mtime : FileTime) (size : Nat),
        (FileInfo.new "IMG-20230615-WA0007.jpg" mtime
          size).estimated_creation_date = ⟨2023, 6, 15, 0, 0⟩) := by
  refine ⟨?_, ?_, by decide, ?_⟩
  · intro a d8 d4 ext mtime size ha h8 h8d h4 h4d hext hextn hmax hvalid
    have hP := matchAt_decomp a d8 d4 ext ha h8 h8d h4 h4d hext hextn
    have hcap := capturePos_eq _ a.length hP hmax
    have hs : (⟨a ++ '-' :: (d8 ++ '-' :: 'W' :: 'A' :: (d4 ++ '.' :: ext))⟩ :
        String).data = a ++ '-' :: (d8 ++ '-' :: 'W' :: 'A' :: (d4 ++ '.' :: ext))
      := rfl
    have hdig : ((a ++ '-' :: (d8 ++ '-' :: 'W' :: 'A' :: (d4 ++ '.' :: ext))).drop
        (a.length + 1)).take 8 = d8 := by
      rw [← List.drop_drop, List.drop_left]
      rw [show ('-' :: (d8 ++ '-' :: 'W' :: 'A' :: (d4 ++ '.' :: ext))).drop 1
          = d8 ++ '-' :: 'W' :: 'A' :: (d4 ++ '.' :: ext) from rfl]
      exact List.take_left' h8
    simp only [FileInfo.new]
    unfold creation_date_from_name
    rw [hs, hcap]
    simp only [hdig, hvalid, if_true]
    rfl
  · intro s mtime size h
    simp only [FileInfo.new, h, Option.getD_none]
  · intro mtime size
    simp only [FileInfo.new]
    rw [show creation_date_from_name "IMG-20230615-WA0007.jpg"
        = some ⟨2023, 6, 15, 0, 0⟩ from by decide]
    rfl

/-- Witness for C9 at the concrete vendor-convention filename. -/
theorem claim_C9_creation_date_from_name_witness :
    (FileInfo.new ⟨"IMG".data ++ '-' :: ("20230615".data ++ '-' :: 'W' :: 'A'
        :: ("0007".data ++ '.' :: "jpg".data))⟩ ⟨123456, 789⟩
      99).estimated_creation_date
      = ⟨digitsToNat ("20230615".data.take 4),
          digitsToNat (("20230615".data.drop 4).take 2),
          digitsToNat ("20230615".data.drop 6), 0, 0⟩ :=
  claim_C9_creation_date_from_name.1 "IMG".data "20230615".data "0007".data
    "jpg".data ⟨123456, 789⟩ 99 (by decide) (by decide) (by decide) (by decide)
    (by decide) (by decide) (by decide) (by decide) (by decide)

/-! ### C7: mirror algebra -/

theorem lookupE_filter_key (es : Entries) (f : RelPath → Bool) (q : RelPath) :
    lookupE (es.filter (fun e => f e.1)) q
      = if f q then lookupE es q else none := by
  induction es with
  | nil => simp [lookupE]
  | cons e rest ih =>
    by_cases hf : f e.1
    · by_cases he : e.1 = q
      · rw [List.filter_cons_of_pos (by simpa using hf)]
        rw [he] at hf
        simp [lookupE, he, hf]
      · rw [List.filter_cons_of_pos (by simpa using hf)]
        simp only [lookupE, he, if_false]
        exact ih
    · by_cases he : e.1 = q
      · rw [List.filter_cons_of_neg (by simpa using hf)]
        rw [he] at hf
        rw [ih]
        simp [hf]
      · rw [List.filter_cons_of_neg (by simpa using hf)]
        rw [ih]
        by_cases hq : f q <;> simp [hq, lookupE, he]

theorem insertE_nodup_keys {es : Entries} (p : RelPath) (fi : FileInfo)
    (h : (es.map (fun e => e.1)).Nodup) :
    ((insertE es p fi).map (fun e => e.1)).Nodup := by
  unfold insertE
  by_cases hc : containsE es p = true
  · rw [if_pos hc]
    have hkeys : (es.map (fun e => if e.1 = p then (p, fi) else e)).map
        (fun e => e.1) = es.map (fun e => e.1) := by
      rw [List.map_map]
      apply List.map_congr_left
      intro e _
      by_cases he : e.1 = p <;> simp [he]
    rw [hkeys]
    exact h
  · rw [if_neg hc]
    rw [List.map_append]
    rw [List.nodup_append]
    refine ⟨h, by simp, ?_⟩
    intro x hx
    simp only [List.map_cons, List.map_nil, List.mem_singleton]
    intro hxp
    rw [hxp] at hx
    exact hc (contains_iff_mem_keys.mpr hx)

theorem import_real_error (c : Bool) (st : IndexState) (p : RelPath)
    (sr : Except IoErr FileInfo) (e : IoErr) (i : Option FileInfo) :
    import_file_maybe_metadata .Real c st p sr (.error e) i
      = ({ st with disk := if c = true then eraseE st.disk p else st.disk },
          some e.toError) := rfl

theorem import_real_ok_none (c : Bool) (st : IndexState) (p : RelPath)
    (sr : Except IoErr FileInfo) (actual : FileInfo) :
    import_file_maybe_metadata .Real c st p sr (.ok actual) none
      = ({ st with disk := insertE st.disk p actual }, none) := rfl

theorem import_real_ok_some (c : Bool) (st : IndexState) (p : RelPath)
    (sr : Except IoErr FileInfo) (actual expected : FileInfo) :
    import_file_maybe_metadata .Real c st p sr (.ok actual) (some expected)
      = if actual = expected
        then ({ entries := insertE st.entries p actual,
                disk := insertE st.disk p actual }, none)
        else ({ st with
                disk := if c = true then eraseE (insertE st.disk p actual) p
                  else insertE st.disk p actual },
              some (.fileMismatch p p)) := rfl

theorem import_dry_error (c : Bool) (st : IndexState) (p : RelPath)
    (cp : Except IoErr FileInfo) (e : IoErr) (i : Option FileInfo) :
    import_file_maybe_metadata .Dry c st p (.error e) cp i
      = (st, some e.toError) := rfl

theorem import_dry_ok (c : Bool) (st : IndexState) (p : RelPath)
    (cp : Except IoErr FileInfo) (actual : FileInfo) (i : Option FileInfo) :
    import_file_maybe_metadata .Dry c st p (.ok actual) cp i
      = ({ st with entries := insertE st.entries p actual }, none) := rfl

theorem import_entries_cases (action : ActionType) (c : Bool)
    (st : IndexState) (p : RelPath) (sr cp : Except IoErr FileInfo)
    (i : Option FileInfo) :
    (import_file_maybe_metadata action c st p sr cp i).1.entries = st.entries
    ∨ ∃ v, (import_file_maybe_metadata action c st p sr cp i).1.entries
        = insertE st.entries p v := by
  cases action with
  | Real =>
    rcases cp with e | actual
    · rw [import_real_error]
      exact Or.inl rfl
    · rcases i with _ | expected
      · rw [import_real_ok_none]
        exact Or.inl rfl
      · rw [import_real_ok_some]
        by_cases hae : actual = expected
        · rw [if_pos hae]
          exact Or.inr ⟨actual, rfl⟩
        · rw [if_neg hae]
          exact Or.inl rfl
  | Dry =>
    rcases sr with e | actual
    · rw [import_dry_error]
      exact Or.inl rfl
    · rw [import_dry_ok]
      exact Or.inr ⟨actual, rfl⟩

theorem import_success_entries (action : ActionType) (c : Bool)
    (st : IndexState) (p : RelPath) (sr cp : Except IoErr FileInfo)
    (expected : FileInfo) (st1 : IndexState)
    (h : import_file_maybe_metadata action c st p sr cp (some expected)
      = (st1, none))
    (hdry : action = .Dry → sr = .ok expected) :
    st1.entries = insertE st.entries p expected := by
  cases action with
  | Real =>
    rcases cp with e | actual
    · rw [import_real_error] at h
      simp at h
    · rw [import_real_ok_some] at h
      by_cases hae : actual = expected
      · rw [if_pos hae] at h
        have h1 := (Prod.mk.injEq _ _ _ _).mp h
        rw [← h1.1, hae]
      · rw [if_neg hae] at h
        simp at h
  | Dry =>
    rw [hdry rfl] at h
    rw [import_dry_ok] at h
    have h1 := (Prod.mk.injEq _ _ _ _).mp h
    rw [← h1.1]

theorem ucl_entries_nodup (action : ActionType) (cOk : RelPath → Bool)
    (sr cp : RelPath → Except IoErr FileInfo) (source : Entries) :
    ∀ (L : List (RelPath × FileInfo)) (st : IndexState) (imp : List RelPath),
    (st.entries.map (fun e => e.1)).Nodup →
    (((update_changed_loop action cOk sr cp source st imp L).1).entries.map
      (fun e => e.1)).Nodup := by
  intro L
  induction L with
  | nil =>
    intro st imp h
    simpa [update_changed_loop] using h
  | cons e0 rest ih =>
    intro st imp h
    obtain ⟨p, v⟩ := e0
    simp only [update_changed_loop]
    by_cases hv : v ≠ (lookupE source p).getD v
    · rw [if_pos hv]
      rcases himp : import_file_maybe_metadata action (cOk p) st p (sr p)
          (cp p) (some ((lookupE source p).getD v)) with ⟨stm, err⟩
      have hstm : (stm.entries.map (fun e => e.1)).Nodup := by
        rcases import_entries_cases action (cOk p) st p (sr p) (cp p)
            (some ((lookupE source p).getD v)) with hc | ⟨w, hc⟩
        · rw [himp] at hc
          simp only at hc
          rw [hc]
          exact h
        · rw [himp] at hc
          simp only at hc
          rw [hc]
          exact insertE_nodup_keys p w h
      cases err with
      | none => exact ih stm (imp ++ [p]) hstm
      | some e1 => exact hstm
    · rw [if_neg hv]
      exact ih st imp h

theorem cml_entries_nodup (action : ActionType) (cOk : RelPath → Bool)
    (sr cp : RelPath → Except IoErr FileInfo) :
    ∀ (L : List (RelPath × FileInfo)) (st : IndexState) (imp : List RelPath),
    (st.entries.map (fun e => e.1)).Nodup →
    (((copy_missing_loop action cOk sr cp st imp L).1).entries.map
      (fun e => e.1)).Nodup := by
  intro L
  induction L with
  | nil =>
    intro st imp h
    simpa [copy_missing_loop] using h
  | cons e0 rest ih =>
    intro st imp h
    obtain ⟨p, v⟩ := e0
    simp only [copy_missing_loop]
    rcases himp : import_file_maybe_metadata action (cOk p) st p (sr p)
        (cp p) (some v) with ⟨stm, err⟩
    have hstm : (stm.entries.map (fun e => e.1)).Nodup := by
      rcases import_entries_cases action (cOk p) st p (sr p) (cp p)
          (some v) with hc | ⟨w, hc⟩
      · rw [himp] at hc
        simp only at hc
        rw [hc]
        exact h
      · rw [himp] at hc
        simp only at hc
        rw [hc]
        exact insertE_nodup_keys p w h
    cases err with
    | none => exact ih stm (imp ++ [p]) hstm
    | some e1 => exact hstm

theorem ucl_no_change (action : ActionType) (cOk : RelPath → Bool)
    (sr cp : RelPath → Except IoErr FileInfo) (source : Entries) :
    ∀ (L : List (RelPath × FileInfo)) (st : IndexState) (imp : List RelPath),
    (∀ e ∈ L, (lookupE source e.1).getD e.2 = e.2) →
    update_changed_loop action cOk sr cp source st imp L = (st, imp, none) := by
  intro L
  induction L with
  | nil => intro st imp _; rfl
  | cons e0 rest ih =>
    intro st imp h
    obtain ⟨p, v⟩ := e0
    simp only [update_changed_loop]
    have heq := h (p, v) (List.mem_cons_self _ _)
    simp only at heq
    have hv : ¬ (v ≠ (lookupE source p).getD v) := by
      rw [heq]
      simp
    rw [if_neg hv]
    exact ih st imp (fun e he => h e (List.mem_cons_of_mem _ he))

theorem ucl_spec (action : ActionType) (cOk : RelPath → Bool)
    (sr cp : RelPath → Except IoErr FileInfo) (source : Entries)
    (hdry : action = .Dry → ∀ p w, lookupE source p = some w → sr p = .ok w) :
    ∀ (L : List (RelPath × FileInfo)) (st : IndexState) (imp : List RelPath)
      (st1 : IndexState) (imp1 : List RelPath),
    update_changed_loop action cOk sr cp source st imp L = (st1, imp1, none) →
    (∀ e ∈ L, containsE source e.1 = true) →
    ((L.map (fun e => e.1)).Nodup) →
    (∀ e ∈ L, lookupE st.entries e.1 = some e.2) →
    ((∀ q, q ∉ L.map (fun e => e.1) →
        lookupE st1.entries q = lookupE st.entries q)
      ∧ (∀ e ∈ L, ∀ w, lookupE source e.1 = some w →
          lookupE st1.entries e.1 = some w)) := by
  intro L
  induction L with
  | nil =>
    intro st imp st1 imp1 hrun _ _ _
    simp only [update_changed_loop, Prod.mk.injEq] at hrun
    constructor
    · intro q _
      rw [← hrun.1]
    · intro e he
      cases he
  | cons e0 rest ih =>
    intro st imp st1 imp1 hrun hkeys hnodup hmem
    obtain ⟨p, v⟩ := e0
    simp only [List.map_cons, List.nodup_cons] at hnodup
    have hpnotrest : p ∉ rest.map (fun e => e.1) := hnodup.1
    obtain ⟨w, hw⟩ := lookupE_isSome_iff.mpr (hkeys (p, v)
      (List.mem_cons_self _ _))
    have hother : (lookupE source p).getD v = w := by rw [hw]; rfl
    simp only [update_changed_loop] at hrun
    by_cases hv : v ≠ (lookupE source p).getD v
    · rw [if_pos hv] at hrun
      rcases himp : import_file_maybe_metadata action (cOk p) st p (sr p)
          (cp p) (some ((lookupE source p).getD v)) with ⟨stm, err⟩
      rw [himp] at hrun
      cases err with
      | some e1 => simp at hrun
      | none =>
        have hentries : stm.entries = insertE st.entries p w := by
          have hse := import_success_entries action (cOk p) st p (sr p) (cp p)
            ((lookupE source p).getD v) stm himp
            (fun hd => by rw [hother]; exact hdry hd p w hw)
          rwa [hother] at hse
        have hmem2 : ∀ e ∈ rest, lookupE stm.entries e.1 = some e.2 := by
          intro e he
          rw [hentries, lookupE_insertE_ne]
          · exact hmem e (List.mem_cons_of_mem _ he)
          · intro hq
            exact hpnotrest (hq ▸ List.mem_map.mpr ⟨e, he, rfl⟩)
        obtain ⟨ihA, ihB⟩ := ih stm (imp ++ [p]) st1 imp1 hrun
          (fun e he => hkeys e (List.mem_cons_of_mem _ he)) hnodup.2 hmem2
        constructor
        · intro q hq
          simp only [List.map_cons, List.mem_cons] at hq
          push_neg at hq
          rw [ihA q hq.2, hentries, lookupE_insertE_ne _ _ hq.1]
        · intro e he w2 hw2
          rcases List.mem_cons.mp he with he0 | he0
          · have he1 : e.1 = p := by rw [he0]
            rw [he1] at hw2 ⊢
            have hww : w2 = w := by
              rw [hw] at hw2
              exact ((Option.some.injEq _ _).mp hw2).symm
            rw [ihA p hpnotrest, hentries, lookupE_insertE_self, hww]
          · exact ihB e he0 w2 hw2
    · rw [if_neg hv] at hrun
      push_neg at hv
      obtain ⟨ihA, ihB⟩ := ih st imp st1 imp1 hrun
        (fun e he => hkeys e (List.mem_cons_of_mem _ he)) hnodup.2
        (fun e he => hmem e (List.mem_cons_of_mem _ he))
      constructor
      · intro q hq
        simp only [List.map_cons, List.mem_cons] at hq
        push_neg at hq
        exact ihA q hq.2
      · intro e he w2 hw2
        rcases List.mem_cons.mp he with he0 | he0
        · have he1 : e.1 = p := by rw [he0]
          rw [he1] at hw2 ⊢
          have hww : w2 = w := by
            rw [hw] at hw2
            exact ((Option.some.injEq _ _).mp hw2).symm
          have hvw : v = w := by rw [hv, hother]
          rw [ihA p hpnotrest, hmem (p, v) (List.mem_cons_self _ _)]
          rw [hww, ← hvw]
        · exact ihB e he0 w2 hw2

theorem cml_spec (action : ActionType) (cOk : RelPath → Bool)
    (sr cp : RelPath → Except IoErr FileInfo) :
    ∀ (L : List (RelPath × FileInfo)) (st : IndexState) (imp : List RelPath)
      (st1 : IndexState) (imp1 : List RelPath),
    copy_missing_loop action cOk sr cp st imp L = (st1, imp1, none) →
    ((L.map (fun e => e.1)).Nodup) →
    (∀ e ∈ L, action = .Dry → sr e.1 = .ok e.2) →
    ((∀ q, q ∉ L.map (fun e => e.1) →
        lookupE st1.entries q = lookupE st.entries q)
      ∧ (∀ e ∈ L, lookupE st1.entries e.1 = some e.2)) := by
  intro L
  induction L with
  | nil =>
    intro st imp st1 imp1 hrun _ _
    simp only [copy_missing_loop, Prod.mk.injEq] at hrun
    constructor
    · intro q _
      rw [← hrun.1]
    · intro e he
      cases he
  | cons e0 rest ih =>
    intro st imp st1 imp1 hrun hnodup hdryL
    obtain ⟨p, v⟩ := e0
    simp only [List.map_cons, List.nodup_cons] at hnodup
    have hpnotrest : p ∉ rest.map (fun e => e.1) := hnodup.1
    simp only [copy_missing_loop] at hrun
    rcases himp : import_file_maybe_metadata action (cOk p) st p (sr p)
        (cp p) (some v) with ⟨stm, err⟩
    rw [himp] at hrun
    cases err with
    | some e1 => simp at hrun
    | none =>
      have hentries : stm.entries = insertE st.entries p v :=
        import_success_entries action (cOk p) st p (sr p) (cp p) v stm himp
          (fun hd => hdryL (p, v) (List.mem_cons_self _ _) hd)
      obtain ⟨ihA, ihB⟩ := ih stm (imp ++ [p]) st1 imp1 hrun hnodup.2
        (fun e he hd => hdryL e (List.mem_cons_of_mem _ he) hd)
      constructor
      · intro q hq
        simp only [List.map_cons, List.mem_cons] at hq
        push_neg at hq
        rw [ihA q hq.2, hentries, lookupE_insertE_ne _ _ hq.1]
      · intro e he
        rcases List.mem_cons.mp he with he0 | he0
        · have he1 : e.1 = p := by rw [he0]
          have he2 : e.2 = v := by rw [he0]
          rw [he1, he2, ihA p hpnotrest, hentries, lookupE_insertE_self]
        · exact ihB e he0

/-- C7: after a successful `mirror_specified(dest, source, files)` the
destination map agrees with the source map on every requested path, paths
outside the request are untouched (mirror never deletes), and an
immediately repeated identical mirror performs no imports and leaves the
state unchanged.  `hdry` is the "no intervening filesystem changes"
premise for Dry mode (reading a source file yields its indexed record);
in Real mode the metadata check enforces agreement by itself. -/
theorem claim_C7_mirror_agreement (action : ActionType) (st : IndexState)
    (source_entries : Entries) (files : List RelPath)
    (cOk : RelPath → Bool) (sr cp : RelPath → Except IoErr FileInfo)
    (st1 : IndexState) (imp1 : List RelPath)
    (hs : (source_entries.map (fun e => e.1)).Nodup)
    (hd : (st.entries.map (fun e => e.1)).Nodup)
    (hdry : action = .Dry → ∀ p w, lookupE source_entries p = some w →
      sr p = .ok w)
    (hrun : mirror_specified action st source_entries files cOk sr cp
      = (st1, imp1, none)) :
    (∀ p ∈ files, lookupE st1.entries p = lookupE source_entries p)
    ∧ (∀ p, p ∉ files → lookupE st1.entries p = lookupE st.entries p)
    ∧ (∀ (cOk2 : RelPath → Bool) (sr2 cp2 : RelPath → Except IoErr FileInfo),
        mirror_specified action st1 source_entries files cOk2 sr2 cp2
          = (st1, [], none)) := by
  simp only [mirror_specified] at hrun
  by_cases hlen : files.dedup.length
      ≠ (source_entries.filter (fun e => files.dedup.contains e.1)).length
  · rw [if_pos hlen] at hrun
    simp [Prod.mk.injEq] at hrun
  · rw [if_neg hlen] at hrun
    have hall : ∀ p ∈ files.dedup, containsE source_entries p = true := by
      have hnex := (mirror_validation_iff source_entries files hs).not.mp hlen
      push_neg at hnex
      intro p hp
      have h2 := hnex p (List.mem_dedup.mp hp)
      cases hc : containsE source_entries p
      · exact absurd hc h2
      · rfl
    set sourceF := source_entries.filter (fun e => files.dedup.contains e.1)
      with hsF
    set common := st.entries.filter (fun e => containsE sourceF e.1)
      with hcommon
    have hsFnod : (sourceF.map (fun e => e.1)).Nodup :=
      hs.sublist ((List.filter_sublist _).map _)
    have hlookF : ∀ p ∈ files.dedup,
        lookupE sourceF p = lookupE source_entries p := by
      intro p hp
      rw [hsF, lookupE_filter_key]
      rw [if_pos (List.elem_iff.mpr hp)]
    have hkeyF : ∀ q : RelPath, (∃ w, lookupE sourceF q = some w) →
        q ∈ files.dedup := by
      intro q hex
      obtain ⟨w, hw⟩ := hex
      rw [hsF, lookupE_filter_key] at hw
      by_cases hf : files.dedup.contains q = true
      · exact List.elem_iff.mp hf
      · rw [if_neg hf] at hw
        cases hw
    rcases h1 : update_changed_loop action cOk sr cp sourceF st [] common
      with ⟨stm, impm, errm⟩
    rw [h1] at hrun
    cases errm with
    | some e0 => simp at hrun
    | none =>
      set missing := sourceF.filter (fun e => !containsE stm.entries e.1)
        with hmissing
      have hrun2 : copy_missing_loop action cOk sr cp stm impm missing
          = (st1, imp1, none) := hrun
      have hdryF : action = .Dry → ∀ p w, lookupE sourceF p = some w →
          sr p = .ok w := by
        intro hd2 p w hw
        have hp := hkeyF p ⟨w, hw⟩
        rw [hlookF p hp] at hw
        exact hdry hd2 p w hw
      have hkeysC : ∀ e ∈ common, containsE sourceF e.1 = true := by
        intro e he
        rw [hcommon] at he
        exact (List.mem_filter.mp he).2
      have hnodC : (common.map (fun e => e.1)).Nodup := by
        rw [hcommon]
        exact hd.sublist ((List.filter_sublist _).map _)
      have hmemC : ∀ e ∈ common, lookupE st.entries e.1 = some e.2 := by
        intro e he
        rw [hcommon] at he
        exact mem_lookupE hd (List.mem_filter.mp he).1
      obtain ⟨uA, uB⟩ := ucl_spec action cOk sr cp sourceF hdryF common st []
        stm impm h1 hkeysC hnodC hmemC
      have hnodM : (missing.map (fun e => e.1)).Nodup := by
        rw [hmissing]
        exact hsFnod.sublist ((List.filter_sublist _).map _)
      have hdryM : ∀ e ∈ missing, action = .Dry → sr e.1 = .ok e.2 := by
        intro e he hd2
        rw [hmissing] at he
        have heF : e ∈ sourceF := (List.mem_filter.mp he).1
        have hlk : lookupE sourceF e.1 = some e.2 := mem_lookupE hsFnod heF
        exact hdryF hd2 e.1 e.2 hlk
      obtain ⟨mA, mB⟩ := cml_spec action cOk sr cp missing stm impm st1 imp1
        hrun2 hnodM hdryM
      have parta : ∀ p ∈ files,
          lookupE st1.entries p = lookupE source_entries p := by
        intro p hp
        have hpD : p ∈ files.dedup := List.mem_dedup.mpr hp
        obtain ⟨w, hw⟩ := lookupE_isSome_iff.mpr (hall p hpD)
        have hwF : lookupE sourceF p = some w := by
          rw [hlookF p hpD]
          exact hw
        by_cases hc : containsE st.entries p = true
        · obtain ⟨v, hv⟩ := lookupE_isSome_iff.mpr hc
          have hmemcommon : (p, v) ∈ common := by
            rw [hcommon]
            exact List.mem_filter.mpr
              ⟨lookupE_mem hv, lookupE_isSome_iff.mp ⟨w, hwF⟩⟩
          have hstm : lookupE stm.entries p = some w := uB (p, v) hmemcommon w hwF
          have hpnotM : p ∉ missing.map (fun e => e.1) := by
            intro hmem2
            obtain ⟨e, he, hefst⟩ := List.mem_map.mp hmem2
            rw [hmissing] at he
            have hnc := (List.mem_filter.mp he).2
            rw [hefst] at hnc
            rw [lookupE_isSome_iff.mp ⟨w, hstm⟩] at hnc
            cases hnc
          rw [mA p hpnotM, hstm, hw]
        · have hpnotC : p ∉ common.map (fun e => e.1) := by
            intro hmem2
            obtain ⟨e, he, hefst⟩ := List.mem_map.mp hmem2
            rw [hcommon] at he
            have := (List.mem_filter.mp he).1
            exact hc (contains_iff_mem_keys.mpr
              (hefst ▸ List.mem_map.mpr ⟨e, this, rfl⟩))
          have hstm : lookupE stm.entries p = none := by
            rw [uA p hpnotC]
            apply lookupE_eq_none_iff.mpr
            cases hcc : containsE st.entries p
            · rfl
            · exact absurd hcc hc
          have hmemM : (p, w) ∈ missing := by
            rw [hmissing]
            refine List.mem_filter.mpr ⟨lookupE_mem hwF, ?_⟩
            rw [lookupE_eq_none_iff.mp hstm]
            rfl
          rw [mB (p, w) hmemM, hw]
      have partb : ∀ p, p ∉ files →
          lookupE st1.entries p = lookupE st.entries p := by
        intro p hp
        have hpD : p ∉ files.dedup := fun h => hp (List.mem_dedup.mp h)
        have hC : p ∉ common.map (fun e => e.1) := by
          intro hmem2
          obtain ⟨e, he, hefst⟩ := List.mem_map.mp hmem2
          rw [hcommon] at he
          have h2 := (List.mem_filter.mp he).2
          obtain ⟨w, hw⟩ := lookupE_isSome_iff.mpr h2
          exact hpD (hefst ▸ hkeyF e.1 ⟨w, hw⟩)
        have hM : p ∉ missing.map (fun e => e.1) := by
          intro hmem2
          obtain ⟨e, he, hefst⟩ := List.mem_map.mp hmem2
          rw [hmissing] at he
          have heF : e ∈ sourceF := (List.mem_filter.mp he).1
          have hlk : lookupE sourceF e.1 = some e.2 := mem_lookupE hsFnod heF
          exact hpD (hefst ▸ hkeyF e.1 ⟨e.2, hlk⟩)
        rw [mA p hM, uA p hC]
      refine ⟨parta, partb, ?_⟩
      intro cOk2 sr2 cp2
      have hst1nod : (st1.entries.map (fun e => e.1)).Nodup := by
        have h2 := ucl_entries_nodup action cOk sr cp sourceF common st [] hd
        rw [h1] at h2
        have h3 := cml_entries_nodup action cOk sr cp missing stm impm h2
        rw [hrun2] at h3
        exact h3
      simp only [mirror_specified]
      rw [← hsF]
      rw [if_neg hlen]
      have hucl2 : update_changed_loop action cOk2 sr2 cp2 sourceF st1 []
          (st1.entries.filter (fun e => containsE sourceF e.1))
          = (st1, [], none) := by
        apply ucl_no_change
        intro e he
        obtain ⟨hest1, hcsF⟩ := List.mem_filter.mp he
        obtain ⟨w, hw⟩ := lookupE_isSome_iff.mpr hcsF
        have hfD : e.1 ∈ files.dedup := hkeyF e.1 ⟨w, hw⟩
        have ha2 := parta e.1 (List.mem_dedup.mp hfD)
        have he2 : lookupE st1.entries e.1 = some e.2 := mem_lookupE hst1nod hest1
        have hlk : lookupE sourceF e.1 = some e.2 := by
          rw [hlookF e.1 hfD, ← ha2, he2]
        rw [hlk]
        rfl
      rw [hucl2]
      show copy_missing_loop action cOk2 sr2 cp2 st1 []
          (sourceF.filter (fun e => !containsE st1.entries e.1))
        = (st1, [], none)
      have hmiss2 : sourceF.filter (fun e => !containsE st1.entries e.1)
          = [] := by
        rw [List.filter_eq_nil_iff]
        intro e he
        have hfD : e.1 ∈ files.dedup := by
          rw [hsF] at he
          exact List.elem_iff.mp (List.mem_filter.mp he).2
        have ha2 := parta e.1 (List.mem_dedup.mp hfD)
        have hlk : lookupE st1.entries e.1 = some e.2 := by
          rw [ha2]
          exact mem_lookupE hs ((List.filter_sublist _).subset he)
        rw [lookupE_isSome_iff.mp ⟨e.2, hlk⟩]
        simp
      rw [hmiss2]
      rfl

/-- Witness for C7 at a concrete input: mirroring one file into an empty
destination in Real mode, then checking agreement on it. -/
theorem claim_C7_mirror_agreement_witness :
    lookupE (mirror_specified .Real ⟨[], []⟩
        [(["Media", "x"], ⟨⟨0, 0⟩, ⟨1970, 1, 1, 0, 0⟩, 4⟩)] [["Media", "x"]]
        (fun _ => true)
        (fun _ => .ok ⟨⟨0, 0⟩, ⟨1970, 1, 1, 0, 0⟩, 4⟩)
        (fun _ => .ok ⟨⟨0, 0⟩, ⟨1970, 1, 1, 0, 0⟩, 4⟩)).1.entries
        ["Media", "x"]
      = lookupE [(["Media", "x"], ⟨⟨0, 0⟩, ⟨1970, 1, 1, 0, 0⟩, 4⟩)]
        ["Media", "x"] :=
  (claim_C7_mirror_agreement .Real ⟨[], []⟩
    [(["Media", "x"], ⟨⟨0, 0⟩, ⟨1970, 1, 1, 0, 0⟩, 4⟩)] [["Media", "x"]]
    (fun _ => true)
    (fun _ => .ok ⟨⟨0, 0⟩, ⟨1970, 1, 1, 0, 0⟩, 4⟩)
    (fun _ => .ok ⟨⟨0, 0⟩, ⟨1970, 1, 1, 0, 0⟩, 4⟩)
    (mirror_specified .Real ⟨[], []⟩
      [(["Media", "x"], ⟨⟨0, 0⟩, ⟨1970, 1, 1, 0, 0⟩, 4⟩)] [["Media", "x"]]
      (fun _ => true)
      (fun _ => .ok ⟨⟨0, 0⟩, ⟨1970, 1, 1, 0, 0⟩, 4⟩)
      (fun _ => .ok ⟨⟨0, 0⟩, ⟨1970, 1, 1, 0, 0⟩, 4⟩)).1
    (mirror_specified .Real ⟨[], []⟩
      [(["Media", "x"], ⟨⟨0, 0⟩, ⟨1970, 1, 1, 0, 0⟩, 4⟩)] [["Media", "x"]]
      (fun _ => true)
      (fun _ => .ok ⟨⟨0, 0⟩, ⟨1970, 1, 1, 0, 0⟩, 4⟩)
      (fun _ => .ok ⟨⟨0, 0⟩, ⟨1970, 1, 1, 0, 0⟩, 4⟩)).2.1
    (by decide) (by decide) (fun h => by cases h) (by decide)).1
    ["Media", "x"] (by decide)

end Waa
